import Mathlib

/-!
# GoLoadBalancer: admission control and request-chain guard

A shallow embedding of `src/main.go` (the `Node` type, `ethBlockHandler` with the pieces it is
made of, and `healthHandler`) together with the properties proved about it.

Modelling conventions.

* Go `int` is the 64-bit two's-complement integer of the targets the service is built for.
  It is modelled as `Int`; every arithmetic operation of the source (`++`, `--`, `+`, `+=`, `-=`)
  is followed by `wrapInt`, the reduction into `[-2^63, 2^63)`.  Properties speak of the
  mathematical sum or product; where the wrapped result of the source can differ from it, the
  property is stated under the condition that it does not.
* A Go `string` is a sequence of bytes; it is modelled as a list of byte values.  `strings.Split`
  and `strings.Contains` belong to the Go standard library and are modelled by their documented
  behaviour on such sequences.
* The pseudo-random source (`math/rand`) and the clock are inputs of the handler.
* The mutex, the simulated work, logging and the reverse proxy show up as events of the trace a
  handler run produces.
-/

namespace GoLoadBalancer

/-! ## Go `int` -/

/-- Reduction of a mathematical integer into the range of a 64-bit Go `int` (two's complement
wrap-around, the behaviour the Go specification prescribes for signed overflow). -/
def wrapInt (x : Int) : Int :=
  (x + 9223372036854775808) % 18446744073709551616 - 9223372036854775808

/-- Go `x + y` on `int`. -/
def goAdd (x y : Int) : Int := wrapInt (x + y)

/-- Go `x - y` on `int`. -/
def goSub (x y : Int) : Int := wrapInt (x - y)

/-- The values a Go `int` can hold. -/
def IsInt (x : Int) : Prop := -9223372036854775808 ≤ x ∧ x ≤ 9223372036854775807

instance (x : Int) : Decidable (IsInt x) := by unfold IsInt; infer_instance

/-! ## Go `string` and the two `strings` functions the handler calls -/

/-- A Go string: a sequence of bytes. -/
abbrev GoString := List Nat

/-- The bytes of a string literal of the source (Go source text is UTF-8). -/
def utf8 (s : String) : GoString := s.toUTF8.data.toList.map UInt8.toNat

/-- The literal `" → "`: space, U+2192 (three bytes in UTF-8), space. -/
def delim : GoString := [0x20, 0xE2, 0x86, 0x92, 0x20]

/-- The function `strings.Contains(s, substr)`: `substr` occurs in `s` at some byte offset. -/
def Contains : GoString → GoString → Bool
  | [], substr => substr.isPrefixOf []
  | c :: s, substr => substr.isPrefixOf (c :: s) || Contains s substr

/-- Puts one more byte in front of the first piece of a split. -/
def consHead (c : Nat) : List GoString → List GoString
  | [] => [[c]]
  | p :: ps => (c :: p) :: ps

/-- The scan behind `strings.Split` for a non-empty separator: `skip` is the number of bytes of
an already recognised separator that are still to be passed over.  Outside a separator, the
leftmost position where `sep` begins closes the current piece. -/
def splitFrom (sep : GoString) : GoString → Nat → List GoString
  | [], _ => [[]]
  | _ :: s, skip + 1 => splitFrom sep s skip
  | c :: s, 0 =>
    if sep.isPrefixOf (c :: s) then [] :: splitFrom sep s (sep.length - 1)
    else consHead c (splitFrom sep s 0)

/-- The function `strings.Split(s, sep)` for a non-empty `sep`: the pieces of `s` between the
successive leftmost, non-overlapping occurrences of `sep`. -/
def Split (s sep : GoString) : List GoString := splitFrom sep s 0

/-! ## The node -/

/-- A peer endpoint (`*url.URL`), as far as the handler reads it. -/
structure URL where
  Scheme : String
  Host : String
  deriving DecidableEq, Repr

/-- The `Node` struct of the source; the mutex `mu` carries no data and appears in traces. -/
structure Node where
  activeRequests : Int
  maxCPU : Int
  memoryUsage : Int
  maxMemory : Int
  memoryPerRequest : Int
  peers : List URL
  hostname : GoString
  deriving DecidableEq, Repr

/-- The mutable part of a node: the pair (activeRequests, memoryUsage). -/
def Node.ledger (n : Node) : Int × Int := (n.activeRequests, n.memoryUsage)

/-- Every integer field of the node is a Go `int`. -/
def Node.WellFormed (n : Node) : Prop :=
  IsInt n.activeRequests ∧ IsInt n.maxCPU ∧ IsInt n.memoryUsage ∧ IsInt n.maxMemory ∧
    IsInt n.memoryPerRequest

instance (n : Node) : Decidable n.WellFormed := by unfold Node.WellFormed; infer_instance

/-- A node on which no request is in flight. -/
def Node.Idle (n : Node) : Prop := n.activeRequests = 0 ∧ n.memoryUsage = 0

instance (n : Node) : Decidable n.Idle := by unfold Node.Idle; infer_instance

/-- The `BlockData` struct of the source. -/
structure BlockData where
  BlockNumber : Nat
  Timestamp : Int
  Hash : Nat
  deriving DecidableEq, Repr

/-! ## Chain check (`ethBlockHandler`, lines 43-58) -/

/-- An incoming request: the value of its `X-Request-Chain` header, if it has one. -/
structure Request where
  chain : Option GoString
  deriving DecidableEq, Repr

/-- The call `r.Header.Get("X-Request-Chain")`: the empty string when the header is absent. -/
def Request.headerGet (r : Request) : GoString := r.chain.getD []

/-- The constant of line 43, `const maxHops = 5`. -/
def maxHops : Nat := 5

/-- Lines 46-58 of `ethBlockHandler`: `none` is the early return with status 429, `some c` is the
value of `requestChain` with which the handler goes on. -/
def chainCheck (hostname : GoString) (r : Request) : Option GoString :=
  let requestChain := r.headerGet
  if requestChain = [] then
    some hostname
  else
    let hops := Split requestChain delim
    if hops.length ≥ maxHops ∨ Contains requestChain hostname = true then
      none
    else
      some (requestChain ++ (delim ++ hostname))

/-! ## Resource check (`ethBlockHandler`, lines 60-78 and 104-112) -/

/-- The text of `reason`, with the numbers that `fmt.Sprintf` puts into it. -/
inductive Reason where
  | cpuOverload (currentCPU maxCPU : Int)
  | memoryOverload (currentMemory requiredMemory maxMemory : Int)
  deriving DecidableEq, Repr

/-- The fixed words at the start of a reason. -/
def Reason.label : Reason → String
  | .cpuOverload _ _ => "CPU overload"
  | .memoryOverload _ _ _ => "Memory overload"

/-- Line 66: `canHandle := currentCPU < n.maxCPU && (currentMemory+requiredMemory) <= n.maxMemory`. -/
def canHandle (n : Node) : Bool :=
  decide (n.activeRequests < n.maxCPU) &&
    decide (goAdd n.memoryUsage n.memoryPerRequest ≤ n.maxMemory)

/-- Lines 105-111: the reason given when the request is not handled locally. -/
def rejectReason (n : Node) : Reason :=
  if n.activeRequests ≥ n.maxCPU then
    .cpuOverload n.activeRequests n.maxCPU
  else
    .memoryOverload n.memoryUsage n.memoryPerRequest n.maxMemory

/-- The critical section opened at line 61: on success (`none`) both counters are raised
(lines 69-70), otherwise the node is left as it is and the reason is computed (lines 105-111). -/
def resourceCheck (n : Node) : Node × Option Reason :=
  if canHandle n then
    ({ n with activeRequests := goAdd n.activeRequests 1,
              memoryUsage := goAdd n.memoryUsage n.memoryPerRequest }, none)
  else
    (n, some (rejectReason n))

/-- The deferred function of lines 73-78, with the `requiredMemory` its closure captured. -/
def release (n : Node) (requiredMemory : Int) : Node :=
  { n with activeRequests := goSub n.activeRequests 1,
           memoryUsage := goSub n.memoryUsage requiredMemory }

/-! ## The handler -/

/-- What a peer answers to a forwarded request: its status code and its body. -/
structure PeerReply where
  status : Nat
  body : GoString
  deriving DecidableEq, Repr

/-- What one run of the handler takes from outside: the values drawn from `math/rand`, the clock,
and the answer of the peer in case the request is forwarded. -/
structure Rand where
  sleep : Nat
  blockNumber : Nat
  hash : Nat
  now : Int
  peer : Nat
  reply : PeerReply
  deriving DecidableEq, Repr

/-- The JSON object `healthHandler` writes (lines 142-149). -/
structure HealthBody where
  hostname : GoString
  activeRequests : Int
  maxCPU : Int
  memoryUsage : Int
  maxMemory : Int
  status : String
  deriving DecidableEq, Repr

/-- What a handler writes to the caller: an error written with `http.Error` (status and the
message passed to it), the JSON body of a request handled locally, the peer's answer relayed by
the reverse proxy, or the JSON body of the health view. -/
inductive Response where
  | error (status : Nat) (body : String)
  | json (node chain : GoString) (block : BlockData) (message : String)
  | proxied (peer : URL) (chain : GoString) (reply : PeerReply)
  | health (body : HealthBody)
  deriving DecidableEq, Repr

/-- HTTP status the caller receives: the one the node writes itself, or, for a forwarded
request, the status of the peer's answer, which the reverse proxy relays. -/
def Response.status : Response → Option Nat
  | .error status _ => some status
  | .json _ _ _ _ => some 200
  | .proxied _ _ reply => some reply.status
  | .health _ => some 200

/-- The response is the JSON body of a request handled locally, with its fixed message. -/
def Response.handledDirectly : Response → Bool
  | .json _ _ _ message => message == "Handled directly"
  | _ => false

/-- The lines `n.log` writes. -/
inductive LogLine where
  | hopLimitOrLoop (chain : GoString)
  | handled (chain : GoString) (cpu maxCPU mem maxMemory : Int)
  | noPeers (chain : GoString) (reason : Reason)
  | proxying (chain : GoString) (host : String) (reason : Reason)
  deriving DecidableEq, Repr

/-- Observable actions of a handler run, in program order. -/
inductive Event where
  | lock
  | unlock
  | sleep (ms : Nat)
  | log (line : LogLine)
  | respond (r : Response)
  | proxy (peer : URL) (chainHeader : GoString)
  deriving DecidableEq, Repr

/-- Result of running a handler to its end on its own. -/
structure Outcome where
  node : Node
  response : Response
  trace : List Event
  deriving DecidableEq, Repr

/-- The function `ethBlockHandler` of the source, run without interference from other requests:
the node when the handler has returned (deferred function included), the response and the
trace. -/
def ethBlockHandler (n : Node) (r : Request) (rnd : Rand) : Outcome :=
  match chainCheck n.hostname r with
  | none =>
    let resp := Response.error 429 "Too many hops or loop detected"
    ⟨n, resp, [.log (.hopLimitOrLoop r.headerGet), .respond resp]⟩
  | some requestChain =>
    let currentCPU := n.activeRequests
    let currentMemory := n.memoryUsage
    let requiredMemory := n.memoryPerRequest
    match resourceCheck n with
    | (n1, none) =>
      let block : BlockData := ⟨rnd.blockNumber % 1000000, rnd.now, rnd.hash % 18446744073709551616⟩
      let resp := Response.json n.hostname requestChain block "Handled directly"
      ⟨release n1 requiredMemory, resp,
        [.lock, .unlock, .sleep (50 + rnd.sleep % 100),
         .log (.handled requestChain (goAdd currentCPU 1) n.maxCPU
           (goAdd currentMemory requiredMemory) n.maxMemory),
         .respond resp, .lock, .unlock]⟩
    | (n1, some reason) =>
      match n1.peers with
      | [] =>
        let resp := Response.error 503 "Service unavailable"
        ⟨n1, resp, [.lock, .unlock, .log (.noPeers requestChain reason), .respond resp]⟩
      | p :: ps =>
        let peer := (p :: ps).getD (rnd.peer % (p :: ps).length) p
        ⟨n1, .proxied peer requestChain rnd.reply,
          [.lock, .unlock, .log (.proxying requestChain peer.Host reason),
           .proxy peer requestChain]⟩

/-- Lines 137-140 of `healthHandler`: the reported status. -/
def healthStatus (n : Node) : String :=
  if n.activeRequests ≥ n.maxCPU ∨ n.memoryUsage ≥ n.maxMemory then "busy" else "ready"

/-- The function `healthHandler` of the source: the lock is taken at line 134 and given back by
the deferred call of line 135 when the handler returns. -/
def healthHandler (n : Node) : Outcome :=
  let resp := Response.health
    ⟨n.hostname, n.activeRequests, n.maxCPU, n.memoryUsage, n.maxMemory, healthStatus n⟩
  ⟨n, resp, [.lock, .respond resp, .unlock]⟩

/-- Reading of a trace with the state of the mutex (`held`): `Lock` is only possible on a free
mutex and `Unlock` on a held one, the simulated work and the call to the peer must find the mutex
free, and the mutex must be free when the handler has returned. -/
def lockDiscipline : Bool → List Event → Bool
  | held, [] => !held
  | held, .lock :: es => !held && lockDiscipline true es
  | held, .unlock :: es => held && lockDiscipline false es
  | held, .sleep _ :: es => !held && lockDiscipline held es
  | held, .proxy _ _ :: es => !held && lockDiscipline held es
  | held, .log _ :: es => lockDiscipline held es
  | held, .respond _ :: es => lockDiscipline held es

/-- Number of acquisitions of the mutex in a trace. -/
def lockCount (es : List Event) : Nat := es.count .lock

/-- Number of releases of the mutex in a trace. -/
def unlockCount (es : List Event) : Nat := es.count .unlock

/-! ## Concurrent requests

Requests run concurrently, but the ledger is only touched inside the two critical sections.
A schedule is therefore a sequence of atomic steps: a request reaching its resource check, or an
admitted request running its deferred release. -/

/-- A node together with the admitted requests that have not yet run their deferred function;
each is represented by the `requiredMemory` its closure holds. -/
structure Sys where
  node : Node
  inflight : List Int
  deriving DecidableEq, Repr

/-- One atomic step of a schedule. -/
inductive Step where
  | arrive
  | finish (i : Nat)
  deriving DecidableEq, Repr

/-- Effect of one step.  `finish i` is the deferred release of the `i`-th request in flight; when
there is no such request the step is not possible and is passed over. -/
def Sys.step (s : Sys) : Step → Sys
  | .arrive =>
    match resourceCheck s.node with
    | (n1, none) => ⟨n1, s.node.memoryPerRequest :: s.inflight⟩
    | (n1, some _) => ⟨n1, s.inflight⟩
  | .finish i =>
    match s.inflight[i]? with
    | none => s
    | some requiredMemory => ⟨release s.node requiredMemory, s.inflight.eraseIdx i⟩

/-- Effect of a schedule. -/
def Sys.run (s : Sys) (steps : List Step) : Sys := steps.foldl Sys.step s

/-- The system in which nothing is in flight. -/
def Sys.init (n : Node) : Sys := ⟨n, []⟩

/-- A request that runs up to the end of its first critical section and is not released yet:
the system it leaves behind and the response its handler writes.  A request stopped by the chain
check never reaches the ledger. -/
def Sys.serve (s : Sys) (r : Request) (rnd : Rand) : Sys × Response :=
  match chainCheck s.node.hostname r with
  | none => (s, (ethBlockHandler s.node r rnd).response)
  | some _ => (s.step .arrive, (ethBlockHandler s.node r rnd).response)

/-- Requests served one after the other with no release in between. -/
def Sys.serveAll (s : Sys) : List (Request × Rand) → Sys × List Response
  | [] => (s, [])
  | (r, rnd) :: rest =>
    (((s.serve r rnd).1.serveAll rest).1,
      (s.serve r rnd).2 :: ((s.serve r rnd).1.serveAll rest).2)

/-- A request passed from node to node: the chain token after the chain checks of the nodes with
the given hostnames, each receiving the token the previous one sent on; `none` as soon as one of
them rejects. -/
def chainAlong (token : GoString) : List GoString → Option GoString
  | [] => some token
  | hostname :: rest =>
    match chainCheck hostname ⟨some token⟩ with
    | none => none
    | some c => chainAlong c rest

/-- What every schedule from an idle node keeps true, whatever the limits: the counters are the
number and the total cost of the requests in flight, reduced to the range of `int`. -/
def Sys.Paired (s : Sys) : Prop :=
  s.node.activeRequests = wrapInt s.inflight.length ∧ s.node.memoryUsage = wrapInt s.inflight.sum

/-- What every schedule keeps true when the limits are non-negative and
`maxMemory + memoryPerRequest` is a Go `int`. -/
def Sys.Bounded (n : Node) (s : Sys) : Prop :=
  s.node.maxCPU = n.maxCPU ∧ s.node.maxMemory = n.maxMemory ∧
    s.node.memoryPerRequest = n.memoryPerRequest ∧
    (∀ x ∈ s.inflight, x = n.memoryPerRequest) ∧
    s.node.activeRequests = s.inflight.length ∧ s.node.memoryUsage = s.inflight.sum ∧
    s.node.activeRequests ≤ n.maxCPU ∧ s.node.memoryUsage ≤ n.maxMemory

/-! ## Nodes used as concrete inputs -/

/-- A node whose memory ceiling and per-request cost are both the largest Go `int`. -/
def overflowNode : Node :=
  { activeRequests := 0, maxCPU := 2, memoryUsage := 0, maxMemory := 9223372036854775807,
    memoryPerRequest := 9223372036854775807, peers := [], hostname := utf8 "nodeA" }

/-- The node of Scenario A: two slots, 200 units of memory, 50 units per request. -/
def scenarioNode : Node :=
  { activeRequests := 0, maxCPU := 2, memoryUsage := 0, maxMemory := 200,
    memoryPerRequest := 50, peers := [], hostname := utf8 "nodeA" }

/-- A node named `nodeA` with both slots taken and one peer. -/
def busyNode : Node :=
  { activeRequests := 2, maxCPU := 2, memoryUsage := 100, maxMemory := 200,
    memoryPerRequest := 50, peers := [⟨"http", "nodeC:8080"⟩], hostname := utf8 "nodeA" }

/-- A node on which the CPU ceiling and the memory ceiling are both reached. -/
def fullNode : Node :=
  { activeRequests := 4, maxCPU := 4, memoryUsage := 200, maxMemory := 200,
    memoryPerRequest := 50, peers := [], hostname := utf8 "nodeA" }

/-- A node with a free slot whose memory is used up. -/
def memoryFullNode : Node :=
  { activeRequests := 1, maxCPU := 4, memoryUsage := 180, maxMemory := 200,
    memoryPerRequest := 50, peers := [], hostname := utf8 "nodeA" }

/-- Some values for the random source and the clock, with the peer answer of Scenario D:
status 200 and the body `{"ok":true}`. -/
def someRand : Rand := ⟨7, 123456, 99, 1700000000, 0, ⟨200, utf8 "\x7b\"ok\":true\x7d"⟩⟩

/-- The same values with a peer that is itself at capacity and without peers: it answers 503. -/
def rand503 : Rand := ⟨7, 123456, 99, 1700000000, 0, ⟨503, utf8 "Service unavailable\n"⟩⟩

/-- The same values with a peer that detects a loop or the hop ceiling: it answers 429. -/
def rand429 : Rand :=
  ⟨7, 123456, 99, 1700000000, 0, ⟨429, utf8 "Too many hops or loop detected\n"⟩⟩

/-- A node named `node1` with free capacity. -/
def node1 : Node :=
  { activeRequests := 0, maxCPU := 2, memoryUsage := 0, maxMemory := 200,
    memoryPerRequest := 50, peers := [], hostname := utf8 "node1" }

/-- A node whose per-request cost is `-2^62`. -/
def negativeCostNode : Node :=
  { activeRequests := 0, maxCPU := 4, memoryUsage := 0, maxMemory := 200,
    memoryPerRequest := -4611686018427387904, peers := [], hostname := utf8 "nodeA" }

/-- A node with four slots whose per-request cost is `2^62`: four times the cost is `2^64`. -/
def wrapNode : Node :=
  { activeRequests := 0, maxCPU := 4, memoryUsage := 0, maxMemory := 9223372036854775807,
    memoryPerRequest := 4611686018427387904, peers := [], hostname := utf8 "nodeA" }

/-- The node `overflowNode` after it has admitted one request: its memory is at the ceiling. -/
def overflowNodeBusy : Node :=
  { activeRequests := 1, maxCPU := 2, memoryUsage := 9223372036854775807,
    maxMemory := 9223372036854775807, memoryPerRequest := 9223372036854775807, peers := [],
    hostname := utf8 "nodeA" }

/-- Three requests without an `X-Request-Chain` header. -/
def threeFresh : List (Request × Rand) := [(⟨none⟩, someRand), (⟨none⟩, someRand), (⟨none⟩, someRand)]

/-! ## Arithmetic of `wrapInt` -/

theorem wrapInt_of_isInt {x : Int} (h : IsInt x) : wrapInt x = x := by
  unfold IsInt at h
  unfold wrapInt
  omega

theorem isInt_wrapInt (x : Int) : IsInt (wrapInt x) := by
  unfold IsInt wrapInt
  omega

theorem wrapInt_zero : wrapInt 0 = 0 := by
  unfold wrapInt
  omega

theorem wrapInt_add_left (x y : Int) : wrapInt (wrapInt x + y) = wrapInt (x + y) := by
  unfold wrapInt
  omega

theorem wrapInt_sub_left (x y : Int) : wrapInt (wrapInt x - y) = wrapInt (x - y) := by
  unfold wrapInt
  omega

theorem goSub_goAdd {x : Int} (y : Int) (h : IsInt x) : goSub (goAdd x y) y = x := by
  unfold goSub goAdd
  rw [wrapInt_sub_left]
  have : x + y - y = x := by omega
  rw [this]
  exact wrapInt_of_isInt h

/-! ## Facts about the resource check -/

theorem canHandle_iff (n : Node) :
    canHandle n = true ↔
      n.activeRequests < n.maxCPU ∧ goAdd n.memoryUsage n.memoryPerRequest ≤ n.maxMemory := by
  simp [canHandle]

theorem resourceCheck_of_canHandle {n : Node} (h : canHandle n = true) :
    resourceCheck n =
      ({ n with activeRequests := goAdd n.activeRequests 1,
                memoryUsage := goAdd n.memoryUsage n.memoryPerRequest }, none) := by
  simp [resourceCheck, h]

theorem resourceCheck_of_not_canHandle {n : Node} (h : canHandle n = false) :
    resourceCheck n = (n, some (rejectReason n)) := by
  simp [resourceCheck, h]

theorem resourceCheck_none_iff (n : Node) : (resourceCheck n).2 = none ↔ canHandle n = true := by
  cases h : canHandle n
  · simp [resourceCheck_of_not_canHandle h]
  · simp [resourceCheck_of_canHandle h]

/-! ## C1: the resource check -/

/-- C1, as stated, fails when the sum overflows: on the node `overflowNodeBusy`
(`memoryUsage = memoryPerRequest = maxMemory = 2^63 - 1`, one slot free) the resource check
admits although `memoryUsage + memoryPerRequest` is `2^64 - 2`, far above `maxMemory`, and the
new `memoryUsage` is `-2`, not that sum. -/
theorem resourceCheck_admits_on_wrapped_sum :
    overflowNodeBusy.WellFormed ∧
    (resourceCheck overflowNodeBusy).2 = none ∧
    ¬ (overflowNodeBusy.activeRequests < overflowNodeBusy.maxCPU ∧
        overflowNodeBusy.memoryUsage + overflowNodeBusy.memoryPerRequest
          ≤ overflowNodeBusy.maxMemory) ∧
    (resourceCheck overflowNodeBusy).1.memoryUsage = -2 ∧
    (resourceCheck overflowNodeBusy).1.memoryUsage ≠
      overflowNodeBusy.memoryUsage + overflowNodeBusy.memoryPerRequest := by
  decide

/-- C1, amended. On every node of Go ints on which `memoryUsage + memoryPerRequest` does not
overflow `int`, the resource check admits a request (no reason is returned) if and only if
`activeRequests < maxCPU` and `memoryUsage + memoryPerRequest <= maxMemory`; when it admits,
the node afterwards is the node before with `activeRequests + 1` and
`memoryUsage + memoryPerRequest` in the two counters and every other field as it was; when it
does not admit, the node, and so its ledger, is the node before the call. -/
theorem resourceCheck_admits_iff (n : Node) (hwf : n.WellFormed)
    (hfit : IsInt (n.memoryUsage + n.memoryPerRequest)) :
    ((resourceCheck n).2 = none ↔
      n.activeRequests < n.maxCPU ∧ n.memoryUsage + n.memoryPerRequest ≤ n.maxMemory) ∧
    ((resourceCheck n).2 = none →
      (resourceCheck n).1 =
        { n with activeRequests := n.activeRequests + 1,
                 memoryUsage := n.memoryUsage + n.memoryPerRequest } ∧
      (resourceCheck n).1.ledger =
        (n.activeRequests + 1, n.memoryUsage + n.memoryPerRequest)) ∧
    ((resourceCheck n).2 ≠ none →
      (resourceCheck n).1 = n ∧ (resourceCheck n).1.ledger = n.ledger) := by
  have hsum : goAdd n.memoryUsage n.memoryPerRequest = n.memoryUsage + n.memoryPerRequest :=
    wrapInt_of_isInt hfit
  refine ⟨?_, ?_, ?_⟩
  · rw [resourceCheck_none_iff, canHandle_iff, hsum]
  · intro h
    have hc := (resourceCheck_none_iff n).1 h
    have hlt := ((canHandle_iff n).1 hc).1
    obtain ⟨ha, hmax, -⟩ := hwf
    have hsucc : goAdd n.activeRequests 1 = n.activeRequests + 1 := by
      unfold goAdd
      apply wrapInt_of_isInt
      unfold IsInt at *
      omega
    rw [resourceCheck_of_canHandle hc, hsucc, hsum]
    exact ⟨rfl, rfl⟩
  · intro h
    have hc : canHandle n = false := by
      cases hc : canHandle n
      · rfl
      · exact absurd ((resourceCheck_none_iff n).2 hc) h
    rw [resourceCheck_of_not_canHandle hc]
    exact ⟨rfl, rfl⟩

/-- The amended C1 on the node of Scenario A, which admits, and on the node with both slots
taken, which does not. -/
theorem resourceCheck_admits_iff_witness :
    ((resourceCheck scenarioNode).2 = none ∧
      (resourceCheck scenarioNode).1.ledger = (1, 50)) ∧
    ((resourceCheck busyNode).2 ≠ none ∧ (resourceCheck busyNode).1 = busyNode) :=
  ⟨⟨by decide,
      ((resourceCheck_admits_iff scenarioNode (by decide) (by decide)).2.1 (by decide)).2⟩,
    by decide,
    ((resourceCheck_admits_iff busyNode (by decide) (by decide)).2.2 (by decide)).1⟩

/-! ## Schedules of reserve and release steps -/

theorem run_nil (s : Sys) : s.run [] = s := rfl

theorem run_cons (s : Sys) (st : Step) (steps : List Step) :
    s.run (st :: steps) = (s.step st).run steps := rfl

theorem eraseIdx_of_getElem? {l : List Int} {i : Nat} {x : Int} (h : l[i]? = some x) :
    (l.eraseIdx i).sum = l.sum - x ∧ ((l.eraseIdx i).length : Int) = l.length - 1 ∧
      ∀ y ∈ l.eraseIdx i, y ∈ l := by
  induction l generalizing i with
  | nil => simp at h
  | cons a l ih =>
    cases i with
    | zero =>
      simp at h
      subst h
      refine ⟨by simp, by simp, ?_⟩
      intro y hy
      simp at hy
      simp [hy]
    | succ i =>
      simp at h
      obtain ⟨hs, hl, hm⟩ := ih h
      refine ⟨?_, ?_, ?_⟩
      · simp only [List.eraseIdx_cons_succ, List.sum_cons, hs]
        omega
      · simp only [List.eraseIdx_cons_succ, List.length_cons, Nat.cast_add, Nat.cast_one, hl]
        omega
      · intro y hy
        simp only [List.eraseIdx_cons_succ, List.mem_cons] at hy
        rcases hy with rfl | hy
        · simp
        · simp [hm y hy]

theorem paired_step (s : Sys) (st : Step) (h : s.Paired) : (s.step st).Paired := by
  obtain ⟨ha, hm⟩ := h
  cases st with
  | arrive =>
    cases hc : canHandle s.node
    · simp only [Sys.step, resourceCheck_of_not_canHandle hc]
      exact ⟨ha, hm⟩
    · simp only [Sys.step, resourceCheck_of_canHandle hc]
      constructor
      · show goAdd s.node.activeRequests 1 = _
        rw [ha]
        unfold goAdd
        rw [wrapInt_add_left]
        simp
      · show goAdd s.node.memoryUsage s.node.memoryPerRequest = _
        rw [hm]
        unfold goAdd
        rw [wrapInt_add_left]
        simp [add_comm]
  | finish i =>
    cases hg : s.inflight[i]? with
    | none =>
      simp only [Sys.step, hg]
      exact ⟨ha, hm⟩
    | some x =>
      simp only [Sys.step, hg]
      obtain ⟨hs, hl, -⟩ := eraseIdx_of_getElem? hg
      constructor
      · show goSub s.node.activeRequests 1 = _
        rw [ha, hl]
        unfold goSub
        rw [wrapInt_sub_left]
      · show goSub s.node.memoryUsage x = _
        rw [hm, hs]
        unfold goSub
        rw [wrapInt_sub_left]

theorem paired_run (steps : List Step) (s : Sys) (h : s.Paired) : (s.run steps).Paired := by
  induction steps generalizing s with
  | nil => exact h
  | cons st steps ih => exact ih _ (paired_step s st h)

theorem sum_nonneg_of_all_eq {l : List Int} {p : Int} (hp : 0 ≤ p) (h : ∀ x ∈ l, x = p) :
    0 ≤ l.sum := by
  induction l with
  | nil => simp
  | cons a l ih =>
    have ha : a = p := h a (by simp)
    have := ih (fun x hx => h x (by simp [hx]))
    simp
    omega

theorem bounded_step (n : Node) (hcpu : IsInt n.maxCPU) (hreq : 0 ≤ n.memoryPerRequest)
    (hfit : n.maxMemory + n.memoryPerRequest ≤ 9223372036854775807)
    (s : Sys) (st : Step) (h : Sys.Bounded n s) : Sys.Bounded n (s.step st) := by
  obtain ⟨h1, h2, h3, hall, ha, hm, hale, hmle⟩ := h
  have hsum := sum_nonneg_of_all_eq hreq hall
  cases st with
  | arrive =>
    cases hc : canHandle s.node
    · simp only [Sys.step, resourceCheck_of_not_canHandle hc]
      exact ⟨h1, h2, h3, hall, ha, hm, hale, hmle⟩
    · simp only [Sys.step, resourceCheck_of_canHandle hc]
      obtain ⟨hlt, hle⟩ := (canHandle_iff _).1 hc
      have e1 : goAdd s.node.activeRequests 1 = s.node.activeRequests + 1 := by
        unfold goAdd
        apply wrapInt_of_isInt
        unfold IsInt at *
        omega
      have e2 : goAdd s.node.memoryUsage s.node.memoryPerRequest =
          s.node.memoryUsage + s.node.memoryPerRequest := by
        unfold goAdd
        apply wrapInt_of_isInt
        unfold IsInt
        omega
      refine ⟨h1, h2, h3, ?_, ?_, ?_, ?_, ?_⟩
      · intro x hx
        simp at hx
        rcases hx with rfl | hx
        · exact h3
        · exact hall x hx
      · show goAdd s.node.activeRequests 1 = _
        rw [e1, ha]
        simp
      · show goAdd s.node.memoryUsage s.node.memoryPerRequest = _
        rw [e2, hm]
        simp [add_comm]
      · show goAdd s.node.activeRequests 1 ≤ _
        rw [e1]
        omega
      · show goAdd s.node.memoryUsage s.node.memoryPerRequest ≤ _
        rw [← h2]
        exact hle
  | finish i =>
    cases hg : s.inflight[i]? with
    | none =>
      simp only [Sys.step, hg]
      exact ⟨h1, h2, h3, hall, ha, hm, hale, hmle⟩
    | some x =>
      simp only [Sys.step, hg]
      obtain ⟨hs, hl, hmem⟩ := eraseIdx_of_getElem? hg
      have hx : x = n.memoryPerRequest := hall x (List.getElem?_mem hg)
      have hpos : 0 < s.inflight.length := by
        rcases Nat.eq_zero_or_pos s.inflight.length with h0 | h0
        · rw [List.length_eq_zero] at h0
          simp [h0] at hg
        · exact h0
      have e1 : goSub s.node.activeRequests 1 = s.node.activeRequests - 1 := by
        unfold goSub
        apply wrapInt_of_isInt
        unfold IsInt at *
        omega
      have e2 : goSub s.node.memoryUsage x = s.node.memoryUsage - x := by
        unfold goSub
        apply wrapInt_of_isInt
        have h0 := sum_nonneg_of_all_eq hreq (fun y hy => hall y (hmem y hy))
        unfold IsInt
        omega
      have h0 := sum_nonneg_of_all_eq hreq (fun y hy => hall y (hmem y hy))
      refine ⟨h1, h2, h3, fun y hy => hall y (hmem y hy), ?_, ?_, ?_, ?_⟩
      · show goSub s.node.activeRequests 1 = _
        rw [e1, ha, hl]
      · show goSub s.node.memoryUsage x = _
        rw [e2, hm, hs]
      · show goSub s.node.activeRequests 1 ≤ _
        rw [e1]
        omega
      · show goSub s.node.memoryUsage x ≤ _
        rw [e2]
        omega

theorem bounded_run (n : Node) (hcpu : IsInt n.maxCPU) (hreq : 0 ≤ n.memoryPerRequest)
    (hfit : n.maxMemory + n.memoryPerRequest ≤ 9223372036854775807)
    (steps : List Step) (s : Sys) (h : Sys.Bounded n s) : Sys.Bounded n (s.run steps) := by
  induction steps generalizing s with
  | nil => exact h
  | cons st steps ih => exact ih _ (bounded_step n hcpu hreq hfit s st h)

/-! ## C2: admission and capacity -/

/-- C2, as stated, fails: on a node with non-negative limits that starts idle, with
`maxMemory = memoryPerRequest = 2^63 - 1`, the sum computed at line 66 for the second request
wraps around to `-2`, the request is admitted, and `memoryUsage` becomes negative while two
requests of cost `2^63 - 1` each are in flight. -/
theorem admission_overshoots_when_sum_wraps :
    overflowNode.WellFormed ∧ overflowNode.Idle ∧ 0 ≤ overflowNode.maxCPU ∧
      0 ≤ overflowNode.maxMemory ∧ 0 ≤ overflowNode.memoryPerRequest ∧
      ((Sys.init overflowNode).run [.arrive, .arrive]).inflight =
        [9223372036854775807, 9223372036854775807] ∧
      ((Sys.init overflowNode).run [.arrive, .arrive]).node.memoryUsage = -2 ∧
      ¬ (0 ≤ ((Sys.init overflowNode).run [.arrive, .arrive]).node.memoryUsage) := by
  decide

/-- C2, amended. For every node whose limits are non-negative Go ints with
`maxMemory + memoryPerRequest` not above the largest `int`, and that starts idle, every ledger
reachable by a schedule of reserve steps and of release steps of admitted requests satisfies
`0 <= activeRequests <= maxCPU` and `0 <= memoryUsage <= maxMemory`; the two counters are the
number of requests in flight and their combined memory cost, which therefore never exceed
`maxCPU` and `maxMemory`. -/
theorem admission_within_capacity (n : Node) (steps : List Step)
    (hwf : n.WellFormed) (hidle : n.Idle)
    (hcpu : 0 ≤ n.maxCPU) (hmem : 0 ≤ n.maxMemory) (hreq : 0 ≤ n.memoryPerRequest)
    (hfit : n.maxMemory + n.memoryPerRequest ≤ 9223372036854775807) :
    (0 ≤ ((Sys.init n).run steps).node.activeRequests ∧
      ((Sys.init n).run steps).node.activeRequests ≤ n.maxCPU) ∧
    (0 ≤ ((Sys.init n).run steps).node.memoryUsage ∧
      ((Sys.init n).run steps).node.memoryUsage ≤ n.maxMemory) ∧
    (((Sys.init n).run steps).inflight.length : Int) ≤ n.maxCPU ∧
    ((Sys.init n).run steps).inflight.sum ≤ n.maxMemory := by
  have h0 : Sys.Bounded n (Sys.init n) := by
    obtain ⟨ha, hm⟩ := hidle
    refine ⟨rfl, rfl, rfl, ?_, ?_, ?_, ?_, ?_⟩
    · intro x hx
      simp [Sys.init] at hx
    · simp [Sys.init, ha]
    · simp [Sys.init, hm]
    · show n.activeRequests ≤ _
      omega
    · show n.memoryUsage ≤ _
      omega
  obtain ⟨-, -, -, hall, ha, hm, hale, hmle⟩ := bounded_run n hwf.2.1 hreq hfit steps _ h0
  have hsum := sum_nonneg_of_all_eq hreq hall
  refine ⟨⟨?_, hale⟩, ⟨?_, hmle⟩, ?_, ?_⟩
  · omega
  · omega
  · omega
  · omega

/-- The amended C2 on the node of Scenario A, for a schedule of three arrivals and one release. -/
theorem admission_within_capacity_witness :
    (0 ≤ ((Sys.init scenarioNode).run [.arrive, .arrive, .arrive, .finish 0]).node.activeRequests ∧
      ((Sys.init scenarioNode).run [.arrive, .arrive, .arrive, .finish 0]).node.activeRequests
        ≤ scenarioNode.maxCPU) ∧
    (0 ≤ ((Sys.init scenarioNode).run [.arrive, .arrive, .arrive, .finish 0]).node.memoryUsage ∧
      ((Sys.init scenarioNode).run [.arrive, .arrive, .arrive, .finish 0]).node.memoryUsage
        ≤ scenarioNode.maxMemory) ∧
    (((Sys.init scenarioNode).run [.arrive, .arrive, .arrive, .finish 0]).inflight.length : Int)
      ≤ scenarioNode.maxCPU ∧
    ((Sys.init scenarioNode).run [.arrive, .arrive, .arrive, .finish 0]).inflight.sum
      ≤ scenarioNode.maxMemory :=
  admission_within_capacity scenarioNode [.arrive, .arrive, .arrive, .finish 0]
    (by decide) (by decide) (by decide) (by decide) (by decide) (by decide)

/-! ## C3: no capacity leak -/

theorem release_resourceCheck {n : Node} (hwf : n.WellFormed) (hc : canHandle n = true) :
    release (resourceCheck n).1 n.memoryPerRequest = n := by
  rw [resourceCheck_of_canHandle hc]
  obtain ⟨ha, -, hm, -, -⟩ := hwf
  cases n
  simp only [release, Node.mk.injEq, and_true, true_and]
  exact ⟨goSub_goAdd 1 ha, goSub_goAdd _ hm⟩

/-- C3. On a node whose fields are Go ints, the deferred release that follows a successful
resource check gives back exactly the node, and so the ledger, from before that check; every
run of `ethBlockHandler`, whatever the request, the random draws and the path taken (429, handled
locally, 503 or forwarded), returns with the node, and so the ledger, it started with, the
deferred release of lines 73-78 included; and for every schedule of reserve and release steps from
an idle node, once every admitted request has run its release (none is in flight any more)
`activeRequests = 0` and `memoryUsage = 0`. -/
theorem no_capacity_leak (n : Node) (hwf : n.WellFormed) :
    ((resourceCheck n).2 = none → release (resourceCheck n).1 n.memoryPerRequest = n) ∧
    (∀ (r : Request) (rnd : Rand),
      (ethBlockHandler n r rnd).node = n ∧ (ethBlockHandler n r rnd).node.ledger = n.ledger) ∧
    (n.Idle → ∀ steps : List Step, ((Sys.init n).run steps).inflight = [] →
      ((Sys.init n).run steps).node.activeRequests = 0 ∧
        ((Sys.init n).run steps).node.memoryUsage = 0) := by
  refine ⟨?_, ?_, ?_⟩
  · intro h
    exact release_resourceCheck hwf ((resourceCheck_none_iff n).1 h)
  · intro r rnd
    have key : (ethBlockHandler n r rnd).node = n := by
      cases hch : chainCheck n.hostname r with
      | none => simp [ethBlockHandler, hch]
      | some c =>
        cases hc : canHandle n
        · rcases hp : n.peers with _ | ⟨p, ps⟩
          · simp [ethBlockHandler, hch, resourceCheck_of_not_canHandle hc, hp]
          · simp [ethBlockHandler, hch, resourceCheck_of_not_canHandle hc, hp]
        · have hrel := release_resourceCheck hwf hc
          rw [resourceCheck_of_canHandle hc] at hrel
          simp only [ethBlockHandler, hch, resourceCheck_of_canHandle hc]
          exact hrel
    exact ⟨key, by rw [key]⟩
  · intro hidle steps hnil
    have h0 : (Sys.init n).Paired := by
      obtain ⟨ha, hm⟩ := hidle
      constructor
      · show n.activeRequests = wrapInt (([] : List Int).length : Int)
        rw [ha]
        simp [wrapInt_zero]
      · show n.memoryUsage = wrapInt ([] : List Int).sum
        rw [hm]
        simp [wrapInt_zero]
    obtain ⟨ha, hm⟩ := paired_run steps _ h0
    rw [hnil] at ha hm
    exact ⟨ha, hm⟩

/-- C3 on the node of Scenario A: a reserve followed by its release, a run of the handler that
handles the request locally, and a schedule in which three requests are admitted and each is
released once. -/
theorem no_capacity_leak_witness :
    scenarioNode.WellFormed ∧
    release (resourceCheck scenarioNode).1 scenarioNode.memoryPerRequest = scenarioNode ∧
    (ethBlockHandler scenarioNode ⟨none⟩ someRand).response.handledDirectly = true ∧
    (ethBlockHandler scenarioNode ⟨none⟩ someRand).node = scenarioNode ∧
    ((Sys.init scenarioNode).run
        [.arrive, .arrive, .finish 1, .arrive, .finish 0, .finish 0]).node.activeRequests = 0 ∧
    ((Sys.init scenarioNode).run
        [.arrive, .arrive, .finish 1, .arrive, .finish 0, .finish 0]).node.memoryUsage = 0 :=
  ⟨by decide, (no_capacity_leak scenarioNode (by decide)).1 (by decide), by decide,
    ((no_capacity_leak scenarioNode (by decide)).2.1 ⟨none⟩ someRand).1,
    (no_capacity_leak scenarioNode (by decide)).2.2 (by decide) _ (by decide)⟩

/-! ## `strings.Contains` and `strings.Split` -/

/-- The model of `strings.Split` and `strings.Contains` on a few inputs, with the results Go
gives: a separator at either end yields an empty piece, overlapping separators are taken from
the left, and the empty string occurs in every string. -/
theorem Split_Contains_examples :
    Split (utf8 "nodeA → nodeB → nodeC") delim = [utf8 "nodeA", utf8 "nodeB", utf8 "nodeC"] ∧
    Split (utf8 "nodeA") delim = [utf8 "nodeA"] ∧
    Split (utf8 " → nodeA → ") delim = [[], utf8 "nodeA", []] ∧
    Split (utf8 "a → → b") delim = [utf8 "a", utf8 "→ b"] ∧
    Split (utf8 "a →→ b") delim = [utf8 "a →→ b"] ∧
    Contains (utf8 "node10 → node2") (utf8 "node1") = true ∧
    Contains (utf8 "node10 → node2") (utf8 "node3") = false ∧
    Contains (utf8 "nodeA") [] = true ∧
    Contains [] [] = true ∧
    Contains [] (utf8 "a") = false := by
  decide

theorem contains_iff_occurs (s substr : GoString) : Contains s substr = true ↔ substr <:+: s := by
  induction s with
  | nil => simp [Contains, List.isPrefixOf_iff_prefix]
  | cons c s ih =>
    simp only [Contains, Bool.or_eq_true, List.isPrefixOf_iff_prefix, ih, List.infix_cons_iff]

theorem splitFrom_pieces (sep : GoString) (s : GoString) (k : Nat) :
    ∃ q qs, splitFrom sep s k = q :: qs ∧ (k = 0 → q <+: s) ∧ q <:+: s ∧ ∀ p ∈ qs, p <:+: s := by
  induction s generalizing k with
  | nil => exact ⟨[], [], rfl, fun _ => List.prefix_refl _, List.infix_refl _, by simp⟩
  | cons c s ih =>
    cases k with
    | succ k =>
      obtain ⟨q, qs, e, -, hq, hqs⟩ := ih k
      refine ⟨q, qs, by simp [splitFrom, e], by simp, List.infix_cons hq, ?_⟩
      intro p hp
      exact List.infix_cons (hqs p hp)
    | zero =>
      by_cases hpre : sep.isPrefixOf (c :: s) = true
      · obtain ⟨q, qs, e, -, hq, hqs⟩ := ih (sep.length - 1)
        refine ⟨[], q :: qs, by simp [splitFrom, hpre, e], fun _ => List.nil_prefix,
          List.nil_infix, ?_⟩
        intro p hp
        simp only [List.mem_cons] at hp
        rcases hp with rfl | hp
        · exact List.infix_cons hq
        · exact List.infix_cons (hqs p hp)
      · obtain ⟨q, qs, e, hq0, -, hqs⟩ := ih 0
        have hpfx : c :: q <+: c :: s := (List.prefix_cons_inj c).2 (hq0 rfl)
        refine ⟨c :: q, qs, by simp [splitFrom, hpre, e, consHead], fun _ => hpfx,
          hpfx.isInfix, ?_⟩
        intro p hp
        exact List.infix_cons (hqs p hp)

theorem mem_Split_occurs {s sep p : GoString} (h : p ∈ Split s sep) : p <:+: s := by
  obtain ⟨q, qs, e, -, hq, hqs⟩ := splitFrom_pieces sep s 0
  unfold Split at h
  rw [e] at h
  simp only [List.mem_cons] at h
  rcases h with rfl | h
  · exact hq
  · exact hqs p h

theorem splitFrom_ne_nil (sep s : GoString) (k : Nat) : splitFrom sep s k ≠ [] := by
  obtain ⟨q, qs, e, -⟩ := splitFrom_pieces sep s k
  simp [e]

theorem length_consHead {l : List GoString} (c : Nat) (h : l ≠ []) :
    (consHead c l).length = l.length := by
  cases l with
  | nil => exact absurd rfl h
  | cons p ps => rfl

theorem splitFrom_nil (sep : GoString) (k : Nat) : splitFrom sep [] k = [[]] := by
  cases k <;> rfl

theorem splitFrom_cons_succ (sep : GoString) (c : Nat) (s : GoString) (k : Nat) :
    splitFrom sep (c :: s) (k + 1) = splitFrom sep s k := rfl

theorem splitFrom_cons_zero (sep : GoString) (c : Nat) (s : GoString) :
    splitFrom sep (c :: s) 0 =
      if sep.isPrefixOf (c :: s) then [] :: splitFrom sep s (sep.length - 1)
      else consHead c (splitFrom sep s 0) := rfl

theorem delim_isPrefixOf_of_ne {c : Nat} (s : GoString) (hc : c ≠ 32) :
    delim.isPrefixOf (c :: s) = false := by
  have : ¬ (32 = c) := fun e => hc e.symm
  simp [delim, List.isPrefixOf, this]

theorem splitFrom_cons_of_ne {c : Nat} (s : GoString) (hc : c ≠ 32) :
    splitFrom delim (c :: s) 0 = consHead c (splitFrom delim s 0) := by
  rw [splitFrom_cons_zero, delim_isPrefixOf_of_ne s hc]
  simp

theorem splitFrom_no_space (h : GoString) (hh : 32 ∉ h) : splitFrom delim h 0 = [h] := by
  induction h with
  | nil => rfl
  | cons c h ih =>
    simp only [List.mem_cons, not_or] at hh
    have hc : c ≠ 32 := fun e => hh.1 e.symm
    rw [splitFrom_cons_of_ne h hc, ih hh.2]
    rfl

theorem splitFrom_skip (sep a b : GoString) :
    splitFrom sep (a ++ b) a.length = splitFrom sep b 0 := by
  induction a with
  | nil => rfl
  | cons c a ih => exact ih

theorem splitFrom_delim_append (s : GoString) :
    splitFrom delim (delim ++ s) 0 = [] :: splitFrom delim s 0 := by
  have e : delim ++ s = 32 :: ([226, 134, 146, 32] ++ s) := rfl
  have hp : delim.isPrefixOf (32 :: ([226, 134, 146, 32] ++ s)) = true := by
    simp [delim, List.isPrefixOf]
  rw [e, splitFrom_cons_zero, if_pos hp]
  exact congrArg _ (splitFrom_skip delim [226, 134, 146, 32] s)

theorem delim_not_isPrefixOf_space {h : GoString} (hh : 32 ∉ h) :
    ¬ delim.isPrefixOf (32 :: h) = true := by
  intro hp
  rw [List.isPrefixOf_iff_prefix] at hp
  obtain ⟨t, ht⟩ := hp
  have e : delim ++ t = 32 :: ([226, 134, 146, 32] ++ t) := rfl
  rw [e] at ht
  injection ht with _ ht
  apply hh
  rw [← ht]
  simp

theorem length_splitFrom_append (h : GoString) (hh : 32 ∉ h) (t : GoString) (k : Nat)
    (hk : k ≤ t.length) :
    (splitFrom delim (t ++ (delim ++ h)) k).length = (splitFrom delim t k).length + 1 := by
  induction t generalizing k with
  | nil =>
    have hk0 : k = 0 := by simpa using hk
    subst hk0
    rw [List.nil_append, splitFrom_delim_append, splitFrom_no_space h hh]
    rfl
  | cons c t ih =>
    cases k with
    | succ k =>
      rw [List.cons_append, splitFrom_cons_succ, splitFrom_cons_succ]
      exact ih k (by simpa using hk)
    | zero =>
      rw [List.cons_append, splitFrom_cons_zero, splitFrom_cons_zero]
      by_cases h1 : delim.isPrefixOf (c :: t) = true
      · have h2 : delim.isPrefixOf (c :: (t ++ (delim ++ h))) = true := by
          rw [List.isPrefixOf_iff_prefix] at h1 ⊢
          exact h1.trans (List.prefix_append (c :: t) (delim ++ h))
        rw [if_pos h1, if_pos h2]
        have hl : delim.length ≤ (c :: t).length :=
          (List.isPrefixOf_iff_prefix.1 h1).length_le
        simp only [List.length_cons, add_left_inj]
        apply ih
        simp [delim] at hl ⊢
        omega
      · by_cases h2 : delim.isPrefixOf (c :: (t ++ (delim ++ h))) = true
        · rw [if_neg h1, if_pos h2]
          rcases t with _ | ⟨a, _ | ⟨b, _ | ⟨d, _ | ⟨e, t⟩⟩⟩⟩
          · simp [delim, List.isPrefixOf] at h2
          · simp [delim, List.isPrefixOf] at h2
          · simp [delim, List.isPrefixOf] at h2
          · simp [delim, List.isPrefixOf] at h2
            obtain ⟨rfl, rfl, rfl, rfl⟩ := h2
            have e1 : [226, 134, 146] ++ (delim ++ h) =
                [226, 134, 146, 32] ++ (226 :: 134 :: 146 :: 32 :: h) := rfl
            have e2 : delim.length - 1 = [226, 134, 146, 32].length := rfl
            rw [e1, e2, splitFrom_skip, splitFrom_cons_of_ne _ (by decide),
              splitFrom_cons_of_ne _ (by decide), splitFrom_cons_of_ne _ (by decide),
              splitFrom_cons_zero, if_neg (delim_not_isPrefixOf_space hh),
              splitFrom_no_space h hh, splitFrom_no_space [226, 134, 146] (by decide)]
            rfl
          · simp [delim, List.isPrefixOf] at h1 h2
            exact absurd h2.2.2.2.2 (h1 h2.1 h2.2.1 h2.2.2.1 h2.2.2.2.1)
        · rw [if_neg h1, if_neg h2, length_consHead _ (splitFrom_ne_nil _ _ _),
            length_consHead _ (splitFrom_ne_nil _ _ _)]
          exact ih 0 (Nat.zero_le _)

/-! ## Facts about the handler -/

theorem ethBlockHandler_of_chainCheck_none {n : Node} {r : Request} (rnd : Rand)
    (h : chainCheck n.hostname r = none) :
    ethBlockHandler n r rnd =
      ⟨n, .error 429 "Too many hops or loop detected",
        [.log (.hopLimitOrLoop r.headerGet),
         .respond (.error 429 "Too many hops or loop detected")]⟩ := by
  simp [ethBlockHandler, h]

theorem ethBlockHandler_of_chainCheck_some {n : Node} {r : Request} {c : GoString} (rnd : Rand)
    (h : chainCheck n.hostname r = some c) :
    (∀ body, (ethBlockHandler n r rnd).response ≠ .error 429 body) ∧
    (∀ nd c' b m, (ethBlockHandler n r rnd).response = .json nd c' b m → c' = c) ∧
    (∀ peer c' reply, (ethBlockHandler n r rnd).response = .proxied peer c' reply →
      c' = c ∧ reply = rnd.reply ∧ Event.proxy peer c' ∈ (ethBlockHandler n r rnd).trace) ∧
    (∀ peer c', Event.proxy peer c' ∈ (ethBlockHandler n r rnd).trace → c' = c) := by
  cases hc : canHandle n
  · rcases hp : n.peers with _ | ⟨p, ps⟩
    · simp [ethBlockHandler, h, resourceCheck_of_not_canHandle hc, hp]
    · simp [ethBlockHandler, h, resourceCheck_of_not_canHandle hc, hp]
  · simp [ethBlockHandler, h, resourceCheck_of_canHandle hc]
    intro nd c' b m _ hc' _ _
    exact hc'.symm

theorem chainCheck_of_nonempty {hostname token : GoString} (hne : token ≠ []) :
    chainCheck hostname ⟨some token⟩ =
      if (Split token delim).length ≥ maxHops ∨ Contains token hostname = true then none
      else some (token ++ (delim ++ hostname)) := by
  simp [chainCheck, Request.headerGet, hne]

/-! ## C4: loop detection -/

/-- C4. For every node and every non-empty `X-Request-Chain` token whose hop list (the token
split on `" → "`) contains the node's hostname, the chain check rejects the request and the
handler answers 429, whatever the number of hops. -/
theorem chainCheck_rejects_loop (n : Node) (token : GoString) (rnd : Rand)
    (hne : token ≠ []) (hmem : n.hostname ∈ Split token delim) :
    chainCheck n.hostname ⟨some token⟩ = none ∧
      (ethBlockHandler n ⟨some token⟩ rnd).response.status = some 429 := by
  have hc : chainCheck n.hostname ⟨some token⟩ = none := by
    rw [chainCheck_of_nonempty hne, if_pos]
    exact Or.inr ((contains_iff_occurs _ _).2 (mem_Split_occurs hmem))
  refine ⟨hc, ?_⟩
  rw [ethBlockHandler_of_chainCheck_none rnd hc]
  rfl

/-- Scenario B: the token `nodeA → nodeB → nodeA` arriving at the node named `nodeA`. -/
theorem chainCheck_rejects_loop_witness :
    utf8 "nodeA → nodeB → nodeA" ≠ [] ∧
    scenarioNode.hostname ∈ Split (utf8 "nodeA → nodeB → nodeA") delim ∧
    chainCheck scenarioNode.hostname ⟨some (utf8 "nodeA → nodeB → nodeA")⟩ = none ∧
    (ethBlockHandler scenarioNode ⟨some (utf8 "nodeA → nodeB → nodeA")⟩ someRand).response.status
      = some 429 :=
  ⟨by decide, by decide,
    chainCheck_rejects_loop scenarioNode (utf8 "nodeA → nodeB → nodeA") someRand
      (by decide) (by decide)⟩

/-! ## C5: hop ceiling -/

/-- C5. For every node and every non-empty `X-Request-Chain` token whose hop list has
`maxHops = 5` entries or more, the chain check rejects the request and the handler answers 429,
whatever the token contains and whether or not the node's hostname occurs in it. -/
theorem chainCheck_rejects_at_hop_ceiling (n : Node) (token : GoString) (rnd : Rand)
    (hne : token ≠ []) (hlen : maxHops ≤ (Split token delim).length) :
    chainCheck n.hostname ⟨some token⟩ = none ∧
      (ethBlockHandler n ⟨some token⟩ rnd).response.status = some 429 := by
  have hc : chainCheck n.hostname ⟨some token⟩ = none := by
    rw [chainCheck_of_nonempty hne, if_pos]
    exact Or.inl hlen
  refine ⟨hc, ?_⟩
  rw [ethBlockHandler_of_chainCheck_none rnd hc]
  rfl

/-- Scenario C: a chain of five hops that does not contain the node named `nodeA`. -/
theorem chainCheck_rejects_at_hop_ceiling_witness :
    (Split (utf8 "n1 → n2 → n3 → n4 → n5") delim).length = 5 ∧
    Contains (utf8 "n1 → n2 → n3 → n4 → n5") scenarioNode.hostname = false ∧
    chainCheck scenarioNode.hostname ⟨some (utf8 "n1 → n2 → n3 → n4 → n5")⟩ = none ∧
    (ethBlockHandler scenarioNode ⟨some (utf8 "n1 → n2 → n3 → n4 → n5")⟩ someRand).response.status
      = some 429 :=
  ⟨by decide, by decide,
    chainCheck_rejects_at_hop_ceiling scenarioNode (utf8 "n1 → n2 → n3 → n4 → n5") someRand
      (by decide) (by decide)⟩

/-! ## C6: chain acceptance -/

/-- C6, on the code. At the node named `node1` the token `node10 → node2` is not empty, has the
two hops `node10` and `node2`, fewer than `maxHops = 5`, and `node1` is none of them; the claim
asks for acceptance, but line 52 searches the hostname in the whole token with
`strings.Contains`, finds it inside `node10`, and the handler answers 429. -/
theorem chainCheck_rejects_non_hop :
    utf8 "node10 → node2" ≠ [] ∧
    Split (utf8 "node10 → node2") delim = [utf8 "node10", utf8 "node2"] ∧
    (Split (utf8 "node10 → node2") delim).length < maxHops ∧
    node1.hostname ∉ Split (utf8 "node10 → node2") delim ∧
    Contains (utf8 "node10 → node2") node1.hostname = true ∧
    chainCheck node1.hostname ⟨some (utf8 "node10 → node2")⟩ = none ∧
    (ethBlockHandler node1 ⟨some (utf8 "node10 → node2")⟩ someRand).response
      = .error 429 "Too many hops or loop detected" ∧
    (ethBlockHandler node1 ⟨some (utf8 "node10 → node2")⟩ someRand).response.status
      = some 429 := by
  decide

/-- What the chain check of the source accepts: for every node whose hostname contains no space
and every non-empty token whose hop list has fewer than `maxHops = 5` hops and in which the
hostname does not occur at all, the chain check accepts with the token followed by `" → "` and
the hostname, the node does not write a 429 itself, and the hop list of the new token has
exactly one more hop than the hop list of the incoming token. -/
theorem chainCheck_accepts (n : Node) (token : GoString) (rnd : Rand)
    (hne : token ≠ []) (hlen : (Split token delim).length < maxHops)
    (hsub : Contains token n.hostname = false) (hsp : 32 ∉ n.hostname) :
    chainCheck n.hostname ⟨some token⟩ = some (token ++ (delim ++ n.hostname)) ∧
    (∀ body, (ethBlockHandler n ⟨some token⟩ rnd).response ≠ .error 429 body) ∧
    (Split (token ++ (delim ++ n.hostname)) delim).length = (Split token delim).length + 1 := by
  have hc : chainCheck n.hostname ⟨some token⟩ = some (token ++ (delim ++ n.hostname)) := by
    rw [chainCheck_of_nonempty hne, if_neg]
    rintro (h | h)
    · exact absurd h (Nat.not_le.2 hlen)
    · rw [hsub] at h
      exact Bool.noConfusion h
  exact ⟨hc, (ethBlockHandler_of_chainCheck_some rnd hc).1,
    length_splitFrom_append n.hostname hsp token 0 (Nat.zero_le _)⟩

/-! ## C7: fresh chain -/

/-- C7. For every node, when the `X-Request-Chain` header is absent or empty the chain check
accepts and the chain token is exactly the node's hostname; the node never writes a 429 itself
(a status 429 can then only be the answer of a peer, relayed), and that token is the one reported
when the request is handled locally and the one sent on when it is forwarded.  When the hostname
contains no space, its hop list is the hostname alone. -/
theorem chainCheck_fresh (n : Node) (rnd : Rand) :
    chainCheck n.hostname ⟨none⟩ = some n.hostname ∧
    chainCheck n.hostname ⟨some []⟩ = some n.hostname ∧
    (∀ r : Request, r.headerGet = [] →
      chainCheck n.hostname r = some n.hostname ∧
      (∀ body, (ethBlockHandler n r rnd).response ≠ .error 429 body) ∧
      ((ethBlockHandler n r rnd).response.status = some 429 →
        ∃ peer c, (ethBlockHandler n r rnd).response = .proxied peer c rnd.reply ∧
          rnd.reply.status = 429) ∧
      (∀ nd c b m, (ethBlockHandler n r rnd).response = .json nd c b m → c = n.hostname) ∧
      (∀ peer c reply, (ethBlockHandler n r rnd).response = .proxied peer c reply →
        c = n.hostname)) ∧
    (32 ∉ n.hostname → Split n.hostname delim = [n.hostname]) := by
  have key : ∀ r : Request, r.headerGet = [] → chainCheck n.hostname r = some n.hostname := by
    intro r hr
    simp [chainCheck, hr]
  refine ⟨key _ rfl, key _ rfl, ?_, fun h => splitFrom_no_space _ h⟩
  intro r hr
  obtain ⟨h1, h2, h3, -⟩ := ethBlockHandler_of_chainCheck_some rnd (key r hr)
  refine ⟨key r hr, h1, ?_, h2, fun peer c reply hpc => (h3 peer c reply hpc).1⟩
  intro hst
  cases hresp : (ethBlockHandler n r rnd).response with
  | error status body =>
    rw [hresp] at hst
    simp only [Response.status, Option.some.injEq] at hst
    subst hst
    exact absurd hresp (h1 body)
  | json nd c b m =>
    rw [hresp] at hst
    simp [Response.status] at hst
  | proxied peer c reply =>
    rw [hresp] at hst
    simp only [Response.status, Option.some.injEq] at hst
    have hr := (h3 peer c reply hresp).2.1
    subst hr
    exact ⟨peer, c, rfl, hst⟩
  | health body =>
    exfalso
    cases hc : canHandle n
    · rcases hp : n.peers with _ | ⟨p, ps⟩
      · simp [ethBlockHandler, key r hr, resourceCheck_of_not_canHandle hc, hp] at hresp
      · simp [ethBlockHandler, key r hr, resourceCheck_of_not_canHandle hc, hp] at hresp
    · simp [ethBlockHandler, key r hr, resourceCheck_of_canHandle hc] at hresp

/-! ## C8: forwarded token -/

/-- C8. For every request with a non-empty `X-Request-Chain` token that is forwarded (so it
passed the chain check), the `X-Request-Chain` value the proxy director sets on the request to
the peer is exactly the caller's token followed by `" → "` and this node's hostname; it is the
value a node of the same name reports as `chain` when it handles the request locally.  The
answer the caller receives is the peer's. -/
theorem forwarded_chain (n : Node) (token : GoString) (rnd : Rand) (peer : URL) (c : GoString)
    (reply : PeerReply) (hne : token ≠ [])
    (hfwd : (ethBlockHandler n ⟨some token⟩ rnd).response = .proxied peer c reply) :
    chainCheck n.hostname ⟨some token⟩ = some (token ++ (delim ++ n.hostname)) ∧
    c = token ++ (delim ++ n.hostname) ∧
    Event.proxy peer (token ++ (delim ++ n.hostname))
      ∈ (ethBlockHandler n ⟨some token⟩ rnd).trace ∧
    (∀ peer' c', Event.proxy peer' c' ∈ (ethBlockHandler n ⟨some token⟩ rnd).trace →
      c' = token ++ (delim ++ n.hostname)) ∧
    (∀ (m : Node) (rnd' : Rand) nd c' b msg, m.hostname = n.hostname →
      (ethBlockHandler m ⟨some token⟩ rnd').response = .json nd c' b msg →
      c' = token ++ (delim ++ n.hostname)) ∧
    reply = rnd.reply := by
  have hc : chainCheck n.hostname ⟨some token⟩ = some (token ++ (delim ++ n.hostname)) := by
    rw [chainCheck_of_nonempty hne]
    split
    · next hrej =>
      have h429 : chainCheck n.hostname ⟨some token⟩ = none := by
        rw [chainCheck_of_nonempty hne, if_pos hrej]
      rw [ethBlockHandler_of_chainCheck_none rnd h429] at hfwd
      exact Response.noConfusion hfwd
    · rfl
  obtain ⟨-, -, h3, h4⟩ := ethBlockHandler_of_chainCheck_some rnd hc
  obtain ⟨e, hr, hev⟩ := h3 peer c reply hfwd
  refine ⟨hc, e, e ▸ hev, h4, ?_, hr⟩
  intro m rnd' nd c' b msg hm hj
  rw [← hm] at hc
  rw [← hm]
  exact (ethBlockHandler_of_chainCheck_some rnd' hc).2.1 nd c' b msg hj

/-- Scenario D: the node `nodeA`, at capacity and with one peer, forwards the token `nodeB`; the
peer receives `nodeB → nodeA` and its answer, status 200, is what the caller gets. -/
theorem forwarded_chain_witness :
    (ethBlockHandler busyNode ⟨some (utf8 "nodeB")⟩ someRand).response
      = .proxied ⟨"http", "nodeC:8080"⟩ (utf8 "nodeB → nodeA") someRand.reply ∧
    (ethBlockHandler busyNode ⟨some (utf8 "nodeB")⟩ someRand).response.status = some 200 ∧
    utf8 "nodeB → nodeA" = utf8 "nodeB" ++ (delim ++ busyNode.hostname) ∧
    Event.proxy ⟨"http", "nodeC:8080"⟩ (utf8 "nodeB" ++ (delim ++ busyNode.hostname))
      ∈ (ethBlockHandler busyNode ⟨some (utf8 "nodeB")⟩ someRand).trace :=
  ⟨by decide, by decide,
    (forwarded_chain busyNode (utf8 "nodeB") someRand ⟨"http", "nodeC:8080"⟩
      (utf8 "nodeB → nodeA") someRand.reply (by decide) (by decide)).2.1,
    (forwarded_chain busyNode (utf8 "nodeB") someRand ⟨"http", "nodeC:8080"⟩
      (utf8 "nodeB → nodeA") someRand.reply (by decide) (by decide)).2.2.1⟩

/-! ## C9: the reason of a local rejection -/

/-- C9, as stated, fails for a sum that overflows downwards: on the node with
`memoryPerRequest = -2^62` and `maxMemory = 200`, after two admissions `memoryUsage` is `-2^63`;
the sum of line 66 wraps around to `2^62`, the check fails with two slots free and the reason is
`Memory overload`, while `memoryUsage + memoryPerRequest` is far below `maxMemory`. -/
theorem memory_overload_on_wrapped_sum :
    negativeCostNode.WellFormed ∧ negativeCostNode.Idle ∧
    ((Sys.init negativeCostNode).run [.arrive, .arrive]).node.WellFormed ∧
    ((Sys.init negativeCostNode).run [.arrive, .arrive]).node.activeRequests = 2 ∧
    ((Sys.init negativeCostNode).run [.arrive, .arrive]).node.memoryUsage
      = -9223372036854775808 ∧
    canHandle ((Sys.init negativeCostNode).run [.arrive, .arrive]).node = false ∧
    (rejectReason ((Sys.init negativeCostNode).run [.arrive, .arrive]).node).label
      = "Memory overload" ∧
    ¬ (((Sys.init negativeCostNode).run [.arrive, .arrive]).node.memoryUsage
        + ((Sys.init negativeCostNode).run [.arrive, .arrive]).node.memoryPerRequest
      > ((Sys.init negativeCostNode).run [.arrive, .arrive]).node.maxMemory) := by
  decide

/-- C9, amended. Whenever the resource check fails, the reason it reports is `CPU overload`
exactly when `activeRequests >= maxCPU` (so also when both ceilings are exceeded) and
`Memory overload` otherwise; and when `Memory overload` is reported on a node of Go ints on which
`memoryUsage + memoryPerRequest` is not below the smallest `int`,
`memoryUsage + memoryPerRequest > maxMemory` really holds (the sum the source computes exceeds
`maxMemory` in every case). -/
theorem rejectReason_label (n : Node) (hfail : canHandle n = false) :
    (resourceCheck n).2 = some (rejectReason n) ∧
    ((rejectReason n).label = "CPU overload" ↔ n.activeRequests ≥ n.maxCPU) ∧
    ((rejectReason n).label = "Memory overload" ↔ ¬ n.activeRequests ≥ n.maxCPU) ∧
    ((rejectReason n).label = "Memory overload" →
      goAdd n.memoryUsage n.memoryPerRequest > n.maxMemory ∧
      (n.WellFormed → -9223372036854775808 ≤ n.memoryUsage + n.memoryPerRequest →
        n.memoryUsage + n.memoryPerRequest > n.maxMemory)) := by
  have hlab : (rejectReason n).label =
      if n.activeRequests ≥ n.maxCPU then "CPU overload" else "Memory overload" := by
    unfold rejectReason
    split <;> rfl
  have hcpu : (rejectReason n).label = "CPU overload" ↔ n.activeRequests ≥ n.maxCPU := by
    rw [hlab]
    split
    · next h => simp [h]
    · next h => simp [h]
  have hmem : (rejectReason n).label = "Memory overload" ↔ ¬ n.activeRequests ≥ n.maxCPU := by
    rw [hlab]
    split
    · next h => simp [h]
    · next h => simp [h]
  refine ⟨by rw [resourceCheck_of_not_canHandle hfail], hcpu, hmem, ?_⟩
  intro hl
  have hlt : n.activeRequests < n.maxCPU := by
    have := hmem.1 hl
    omega
  have hgt : goAdd n.memoryUsage n.memoryPerRequest > n.maxMemory := by
    by_contra hle
    have : canHandle n = true := (canHandle_iff n).2 ⟨hlt, by omega⟩
    rw [hfail] at this
    exact Bool.noConfusion this
  refine ⟨hgt, ?_⟩
  intro hwf hnn
  obtain ⟨-, -, hm, hmax, hp⟩ := hwf
  unfold goAdd wrapInt at hgt
  unfold IsInt at hm hmax hp
  omega

/-- The amended C9 on a node on which both ceilings are reached, where the reason is
`CPU overload`, and on a node with a free slot and too little memory, where it is
`Memory overload` and the sum exceeds `maxMemory`. -/
theorem rejectReason_label_witness :
    (canHandle fullNode = false ∧
      fullNode.activeRequests ≥ fullNode.maxCPU ∧
      fullNode.memoryUsage + fullNode.memoryPerRequest > fullNode.maxMemory ∧
      (resourceCheck fullNode).2 = some (rejectReason fullNode) ∧
      (rejectReason fullNode).label = "CPU overload") ∧
    (canHandle memoryFullNode = false ∧
      (rejectReason memoryFullNode).label = "Memory overload" ∧
      goAdd memoryFullNode.memoryUsage memoryFullNode.memoryPerRequest
        > memoryFullNode.maxMemory ∧
      memoryFullNode.memoryUsage + memoryFullNode.memoryPerRequest
        > memoryFullNode.maxMemory) :=
  ⟨⟨by decide, by decide, by decide, (rejectReason_label fullNode (by decide)).1,
      (rejectReason_label fullNode (by decide)).2.1.2 (by decide)⟩,
    by decide, by decide,
    ((rejectReason_label memoryFullNode (by decide)).2.2.2 (by decide)).1,
    ((rejectReason_label memoryFullNode (by decide)).2.2.2 (by decide)).2
      (by decide) (by decide)⟩

/-! ## C10: a chain rejection touches nothing -/

/-- C10. For every node (ledger, limits and peer list) and request, when the chain check
rejects, the handler answers 429, the node and so its ledger after the handler are those before
it, and the run consists of one log line and the response: the lock is never taken and no peer
is selected or contacted. -/
theorem chain_rejection_is_terminal (n : Node) (r : Request) (rnd : Rand)
    (hrej : chainCheck n.hostname r = none) :
    (ethBlockHandler n r rnd).response = .error 429 "Too many hops or loop detected" ∧
    (ethBlockHandler n r rnd).response.status = some 429 ∧
    (ethBlockHandler n r rnd).node = n ∧
    (ethBlockHandler n r rnd).node.ledger = n.ledger ∧
    (ethBlockHandler n r rnd).trace =
      [.log (.hopLimitOrLoop r.headerGet),
       .respond (.error 429 "Too many hops or loop detected")] ∧
    Event.lock ∉ (ethBlockHandler n r rnd).trace ∧
    (∀ peer c, Event.proxy peer c ∉ (ethBlockHandler n r rnd).trace) ∧
    (∀ peer c reply, (ethBlockHandler n r rnd).response ≠ .proxied peer c reply) := by
  rw [ethBlockHandler_of_chainCheck_none rnd hrej]
  refine ⟨rfl, rfl, rfl, rfl, rfl, ?_, ?_, ?_⟩
  · simp
  · intro peer c
    simp
  · intro peer c reply
    simp

/-- C10 on the node `nodeA` at capacity with one peer, for the looping token of Scenario B. -/
theorem chain_rejection_is_terminal_witness :
    chainCheck busyNode.hostname ⟨some (utf8 "nodeA → nodeB → nodeA")⟩ = none ∧
    (ethBlockHandler busyNode ⟨some (utf8 "nodeA → nodeB → nodeA")⟩ someRand).response.status
      = some 429 ∧
    (ethBlockHandler busyNode ⟨some (utf8 "nodeA → nodeB → nodeA")⟩ someRand).node.ledger
      = busyNode.ledger :=
  ⟨by decide,
    (chain_rejection_is_terminal busyNode ⟨some (utf8 "nodeA → nodeB → nodeA")⟩ someRand
      (by decide)).2.1,
    (chain_rejection_is_terminal busyNode ⟨some (utf8 "nodeA → nodeB → nodeA")⟩ someRand
      (by decide)).2.2.2.1⟩

/-! ## C11: outcome of a request that passed the chain check -/

theorem getD_mem_cons (p : URL) (ps : List URL) (i : Nat) : (p :: ps).getD i p ∈ p :: ps := by
  rw [List.getD_eq_getElem?_getD]
  cases h : (p :: ps)[i]? with
  | none => simp
  | some x => simpa using List.getElem?_mem h

/-- C11, as stated, fails for a forwarded request: the node `nodeA` at capacity has one peer, so
the request is forwarded; when that peer is itself at capacity and without peers it answers 503,
the reverse proxy relays it, and the caller receives 503 although the peer list is not empty. -/
theorem status_503_with_peers :
    chainCheck busyNode.hostname ⟨none⟩ = some (utf8 "nodeA") ∧
    canHandle busyNode = false ∧ busyNode.peers ≠ [] ∧
    (ethBlockHandler busyNode ⟨none⟩ rand503).response
      = .proxied ⟨"http", "nodeC:8080"⟩ (utf8 "nodeA") rand503.reply ∧
    (ethBlockHandler busyNode ⟨none⟩ rand503).response.status = some 503 ∧
    ¬ (canHandle busyNode = false ∧ busyNode.peers = []) := by
  decide

/-- C11, amended. For every node and every request that passes the chain check: the node itself
answers 503 (`Service unavailable`) if and only if the resource check fails and the peer list is
empty; if the resource check fails and the peer list is not empty the request is forwarded to
one of the configured peers and the caller receives that peer's answer with that peer's status;
in both cases the node, and so the ledger, is left as it was; if the resource check succeeds
the response is 200 with the message `Handled directly` and no peer is contacted.  The caller
therefore sees status 503 exactly when the check fails and either there is no peer or the peer
answered 503. -/
theorem outcome_after_chainCheck (n : Node) (r : Request) (rnd : Rand) (c : GoString)
    (hpass : chainCheck n.hostname r = some c) :
    ((ethBlockHandler n r rnd).response = .error 503 "Service unavailable" ↔
      canHandle n = false ∧ n.peers = []) ∧
    (canHandle n = false → n.peers ≠ [] →
      ∃ peer ∈ n.peers, (ethBlockHandler n r rnd).response = .proxied peer c rnd.reply ∧
        (ethBlockHandler n r rnd).response.status = some rnd.reply.status ∧
        Event.proxy peer c ∈ (ethBlockHandler n r rnd).trace) ∧
    (canHandle n = false →
      (ethBlockHandler n r rnd).node = n ∧ (ethBlockHandler n r rnd).node.ledger = n.ledger) ∧
    (canHandle n = true →
      (ethBlockHandler n r rnd).response.status = some 200 ∧
      (ethBlockHandler n r rnd).response.handledDirectly = true ∧
      (∀ peer c' reply, (ethBlockHandler n r rnd).response ≠ .proxied peer c' reply) ∧
      (∀ peer c', Event.proxy peer c' ∉ (ethBlockHandler n r rnd).trace)) ∧
    ((ethBlockHandler n r rnd).response.status = some 503 ↔
      canHandle n = false ∧ (n.peers = [] ∨ rnd.reply.status = 503)) := by
  cases hc : canHandle n
  · rcases hp : n.peers with _ | ⟨p, ps⟩
    · simp [ethBlockHandler, hpass, resourceCheck_of_not_canHandle hc, hp, Response.status,
        Node.ledger]
    · have hmem := getD_mem_cons p ps (rnd.peer % (p :: ps).length)
      simp only [ethBlockHandler, hpass, resourceCheck_of_not_canHandle hc, hp,
        Response.status]
      refine ⟨by simp, ?_, by simp, by simp, by simp⟩
      intro _ _
      refine ⟨_, hmem, rfl, ?_, ?_⟩ <;> simp
  · simp [ethBlockHandler, hpass, resourceCheck_of_canHandle hc, Response.status,
      Response.handledDirectly]

/-- The amended C11 on three nodes named `nodeA` for a request without chain header: at capacity
without peers the node answers 503 itself, at capacity with one peer the request goes to that
peer and the caller gets the peer's 200, and with a free slot it is handled with 200. -/
theorem outcome_after_chainCheck_witness :
    (ethBlockHandler fullNode ⟨none⟩ someRand).response = .error 503 "Service unavailable" ∧
    (∃ peer ∈ busyNode.peers,
      (ethBlockHandler busyNode ⟨none⟩ someRand).response
        = .proxied peer (utf8 "nodeA") someRand.reply ∧
      (ethBlockHandler busyNode ⟨none⟩ someRand).response.status = some someRand.reply.status ∧
      Event.proxy peer (utf8 "nodeA") ∈ (ethBlockHandler busyNode ⟨none⟩ someRand).trace) ∧
    (ethBlockHandler busyNode ⟨none⟩ someRand).node = busyNode ∧
    (ethBlockHandler scenarioNode ⟨none⟩ someRand).response.status = some 200 :=
  ⟨(outcome_after_chainCheck fullNode ⟨none⟩ someRand (utf8 "nodeA") (by decide)).1.2
      ⟨by decide, by decide⟩,
    (outcome_after_chainCheck busyNode ⟨none⟩ someRand (utf8 "nodeA") (by decide)).2.1
      (by decide) (by decide),
    ((outcome_after_chainCheck busyNode ⟨none⟩ someRand (utf8 "nodeA") (by decide)).2.2.1
      (by decide)).1,
    ((outcome_after_chainCheck scenarioNode ⟨none⟩ someRand (utf8 "nodeA") (by decide)).2.2.2.1
      (by decide)).1⟩

/-! ## C12: the health view -/

/-- C12. For every node, `healthHandler` answers 200 with the node's hostname, `activeRequests`,
`maxCPU`, `memoryUsage` and `maxMemory` as they are, the status is `busy` if and only if
`activeRequests >= maxCPU` or `memoryUsage >= maxMemory` and `ready` otherwise, and the node,
and so the ledger, is left unchanged. -/
theorem healthHandler_reports (n : Node) :
    (healthHandler n).response =
      .health ⟨n.hostname, n.activeRequests, n.maxCPU, n.memoryUsage, n.maxMemory,
        healthStatus n⟩ ∧
    (healthHandler n).response.status = some 200 ∧
    (healthStatus n = "busy" ↔ n.activeRequests ≥ n.maxCPU ∨ n.memoryUsage ≥ n.maxMemory) ∧
    (healthStatus n = "ready" ↔ ¬ (n.activeRequests ≥ n.maxCPU ∨ n.memoryUsage ≥ n.maxMemory)) ∧
    (healthHandler n).node = n ∧ (healthHandler n).node.ledger = n.ledger := by
  refine ⟨rfl, rfl, ?_, ?_, rfl, rfl⟩
  · unfold healthStatus
    split
    · next h => simp [h]
    · next h => simp [h]
  · unfold healthStatus
    split
    · next h => simp [h]
    · next h => simp [h]

/-! ## C14: lock discipline -/

/-- C14. On every path through `ethBlockHandler` and through `healthHandler` the trace respects
the mutex: every `Lock` finds it free and is followed by one `Unlock` before the next `Lock` and
before the handler returns, and the mutex is free at the simulated work (`time.Sleep`) and at
the call to the peer (`proxy.ServeHTTP`); acquisitions and releases are equal in number. -/
theorem handlers_lock_discipline (n : Node) (r : Request) (rnd : Rand) :
    lockDiscipline false (ethBlockHandler n r rnd).trace = true ∧
    lockCount (ethBlockHandler n r rnd).trace = unlockCount (ethBlockHandler n r rnd).trace ∧
    lockDiscipline false (healthHandler n).trace = true ∧
    lockCount (healthHandler n).trace = unlockCount (healthHandler n).trace := by
  refine ⟨?_, ?_, rfl, ?_⟩
  · cases hch : chainCheck n.hostname r with
    | none => simp [ethBlockHandler, hch, lockDiscipline]
    | some c =>
      cases hc : canHandle n
      · rcases hp : n.peers with _ | ⟨p, ps⟩
        · simp [ethBlockHandler, hch, resourceCheck_of_not_canHandle hc, hp, lockDiscipline]
        · simp [ethBlockHandler, hch, resourceCheck_of_not_canHandle hc, hp, lockDiscipline]
      · simp [ethBlockHandler, hch, resourceCheck_of_canHandle hc, lockDiscipline]
  · cases hch : chainCheck n.hostname r with
    | none => simp [ethBlockHandler, hch, lockCount, unlockCount]
    | some c =>
      cases hc : canHandle n
      · rcases hp : n.peers with _ | ⟨p, ps⟩
        · simp [ethBlockHandler, hch, resourceCheck_of_not_canHandle hc, hp, lockCount,
            unlockCount]
        · simp [ethBlockHandler, hch, resourceCheck_of_not_canHandle hc, hp, lockCount,
            unlockCount]
      · simp [ethBlockHandler, hch, resourceCheck_of_canHandle hc, lockCount, unlockCount]
  · simp [healthHandler, lockCount, unlockCount]

/-! ## C18: `busy` and admission -/

/-- C18, as stated, fails: on the node `overflowNode` after one admission, `memoryPerRequest`
is at least 1 and `memoryUsage` equals `maxMemory`, so the health view says `busy`; but the sum
at line 66 wraps around to `-2` and the resource check admits the next request. -/
theorem busy_yet_admitted_when_sum_wraps :
    overflowNodeBusy.WellFormed ∧ 1 ≤ overflowNodeBusy.memoryPerRequest ∧
    (resourceCheck overflowNode).1 = overflowNodeBusy ∧
    healthStatus overflowNodeBusy = "busy" ∧
    canHandle overflowNodeBusy = true ∧
    (resourceCheck overflowNodeBusy).2 = none := by
  decide

/-- C18, amended. For every node of Go ints with `memoryPerRequest >= 1` on which
`memoryUsage + memoryPerRequest` does not exceed the largest `int`, whenever the health view
reports `busy` the resource check on that node fails: the request is not admitted locally and
the node is left as it is. -/
theorem busy_not_admitted (n : Node) (hwf : n.WellFormed) (hreq : 1 ≤ n.memoryPerRequest)
    (hfit : n.memoryUsage + n.memoryPerRequest ≤ 9223372036854775807)
    (hbusy : healthStatus n = "busy") :
    canHandle n = false ∧ (resourceCheck n).2 = some (rejectReason n) ∧
      (resourceCheck n).1 = n := by
  have hcond : n.activeRequests ≥ n.maxCPU ∨ n.memoryUsage ≥ n.maxMemory := by
    unfold healthStatus at hbusy
    split at hbusy
    · next h => exact h
    · simp at hbusy
  have hc : canHandle n = false := by
    cases hcan : canHandle n
    · rfl
    · obtain ⟨hlt, hle⟩ := (canHandle_iff n).1 hcan
      obtain ⟨-, -, hm, -, -⟩ := hwf
      have e : goAdd n.memoryUsage n.memoryPerRequest = n.memoryUsage + n.memoryPerRequest := by
        unfold goAdd
        apply wrapInt_of_isInt
        unfold IsInt at *
        omega
      rw [e] at hle
      omega
  rw [resourceCheck_of_not_canHandle hc]
  exact ⟨hc, rfl, rfl⟩

/-- The amended C18 on the node `nodeA` with both slots taken. -/
theorem busy_not_admitted_witness :
    healthStatus busyNode = "busy" ∧ canHandle busyNode = false ∧
      (resourceCheck busyNode).2 = some (rejectReason busyNode) ∧
      (resourceCheck busyNode).1 = busyNode :=
  ⟨by decide, busy_not_admitted busyNode (by decide) (by decide) (by decide) (by decide)⟩

/-! ## C13: saturation -/

theorem sum_of_all_eq {l : List Int} {p : Int} (h : ∀ x ∈ l, x = p) : l.sum = l.length * p := by
  induction l with
  | nil => simp
  | cons a l ih =>
    have ha : a = p := h a (by simp)
    have := ih (fun x hx => h x (by simp [hx]))
    simp only [List.sum_cons, List.length_cons, Nat.cast_add, Nat.cast_one, this, ha]
    ring

theorem step_peers (s : Sys) (st : Step) : (s.step st).node.peers = s.node.peers := by
  cases st with
  | arrive =>
    cases hc : canHandle s.node
    · simp [Sys.step, resourceCheck_of_not_canHandle hc]
    · simp [Sys.step, resourceCheck_of_canHandle hc]
  | finish i =>
    cases hg : s.inflight[i]? with
    | none => simp [Sys.step, hg]
    | some x => simp [Sys.step, hg, release]

theorem canHandle_iff_below_cap (n : Node) (hreq : 1 ≤ n.memoryPerRequest)
    (hfit : n.maxMemory + n.memoryPerRequest ≤ 9223372036854775807)
    (s : Sys) (h : Sys.Bounded n s) :
    (canHandle s.node = true ↔
      (s.inflight.length : Int) < min n.maxCPU (n.maxMemory / n.memoryPerRequest)) ∧
    (s.inflight.length : Int) ≤ min n.maxCPU (n.maxMemory / n.memoryPerRequest) := by
  obtain ⟨h1, h2, h3, hall, ha, hm, hale, hmle⟩ := h
  have hp : 0 < n.memoryPerRequest := by omega
  have hsum := sum_of_all_eq hall
  have hq : ∀ j : Int, j ≤ n.maxMemory / n.memoryPerRequest ↔ j * n.memoryPerRequest ≤ n.maxMemory :=
    fun j => Int.le_ediv_iff_mul_le hp
  have hlen0 : (0 : Int) ≤ s.inflight.length := Int.natCast_nonneg _
  have hprod0 : 0 ≤ (s.inflight.length : Int) * n.memoryPerRequest :=
    Int.mul_nonneg hlen0 (by omega)
  have hlenq : (s.inflight.length : Int) ≤ n.maxMemory / n.memoryPerRequest := by
    rw [hq, ← hsum, ← hm]
    exact hmle
  have e2 : goAdd s.node.memoryUsage s.node.memoryPerRequest =
      ((s.inflight.length : Int) + 1) * n.memoryPerRequest := by
    unfold goAdd
    rw [wrapInt_of_isInt, hm, hsum, h3]
    · ring
    · unfold IsInt
      rw [hm, hsum, h3]
      rw [hm, hsum] at hmle
      omega
  constructor
  · rw [canHandle_iff, e2, ha, h1, h2, ← hq]
    omega
  · omega

theorem serve_fresh (s : Sys) (r : Request) (rnd : Rand) (hr : r.headerGet = [])
    (hp : s.node.peers = []) :
    (s.serve r rnd).1 = s.step .arrive ∧
    (canHandle s.node = true →
      (s.serve r rnd).2.handledDirectly = true ∧ (s.serve r rnd).2.status = some 200 ∧
        (s.step .arrive).inflight = s.node.memoryPerRequest :: s.inflight) ∧
    (canHandle s.node = false →
      (s.serve r rnd).2 = .error 503 "Service unavailable" ∧ s.step .arrive = s) := by
  have hch : chainCheck s.node.hostname r = some s.node.hostname := by
    simp [chainCheck, hr]
  refine ⟨by simp [Sys.serve, hch], ?_, ?_⟩
  · intro hc
    simp [Sys.serve, hch, ethBlockHandler, resourceCheck_of_canHandle hc,
      Response.handledDirectly, Response.status, Sys.step]
  · intro hc
    simp [Sys.serve, hch, ethBlockHandler, resourceCheck_of_not_canHandle hc, hp, Sys.step]

theorem serveAll_cons (s : Sys) (r : Request) (rnd : Rand) (rest : List (Request × Rand)) :
    (s.serveAll ((r, rnd) :: rest)).2 =
      (s.serve r rnd).2 :: ((s.serve r rnd).1.serveAll rest).2 := rfl

theorem serveAll_fresh (n : Node) (hcpu : IsInt n.maxCPU) (hreq : 1 ≤ n.memoryPerRequest)
    (hfit : n.maxMemory + n.memoryPerRequest ≤ 9223372036854775807)
    (reqs : List (Request × Rand)) (s : Sys) (hb : Sys.Bounded n s) (hp : s.node.peers = [])
    (hfresh : ∀ x ∈ reqs, x.1.headerGet = []) :
    (s.serveAll reqs).2.length = reqs.length ∧
    (((s.serveAll reqs).2.filter Response.handledDirectly).length : Int) =
      min (reqs.length : Int)
        (min n.maxCPU (n.maxMemory / n.memoryPerRequest) - s.inflight.length) ∧
    (((s.serveAll reqs).2.filter (fun x => decide (x.status = some 503))).length : Int) =
      reqs.length - min (reqs.length : Int)
        (min n.maxCPU (n.maxMemory / n.memoryPerRequest) - s.inflight.length) ∧
    (∀ x ∈ (s.serveAll reqs).2,
      (x.handledDirectly = true ∧ x.status = some 200) ∨
        x = .error 503 "Service unavailable") := by
  induction reqs generalizing s with
  | nil =>
    obtain ⟨-, hle⟩ := canHandle_iff_below_cap n hreq hfit s hb
    refine ⟨rfl, ?_, ?_, ?_⟩
    · simp [Sys.serveAll]
      omega
    · simp [Sys.serveAll]
      omega
    · intro x hx
      simp [Sys.serveAll] at hx
  | cons rq rest ih =>
    obtain ⟨r, rnd⟩ := rq
    obtain ⟨hiff, hle⟩ := canHandle_iff_below_cap n hreq hfit s hb
    obtain ⟨hs1, hyes, hno⟩ := serve_fresh s r rnd (hfresh (r, rnd) (by simp)) hp
    have hb1 : Sys.Bounded n (s.serve r rnd).1 := by
      rw [hs1]
      exact bounded_step n hcpu (by omega) hfit s .arrive hb
    have hp1 : (s.serve r rnd).1.node.peers = [] := by
      rw [hs1, step_peers]
      exact hp
    obtain ⟨il, ic, i5, iall⟩ := ih (s.serve r rnd).1 hb1 hp1
      (fun x hx => hfresh x (by simp [hx]))
    rw [serveAll_cons, hs1]
    rw [hs1] at il ic i5 iall
    cases hc : canHandle s.node
    · obtain ⟨hresp, hsame⟩ := hno hc
      have hge : ¬ (s.inflight.length : Int) < min n.maxCPU (n.maxMemory / n.memoryPerRequest) :=
        fun h => by rw [hiff.2 h] at hc; exact Bool.noConfusion hc
      rw [hsame] at il ic i5 iall ⊢
      refine ⟨by simp [il], ?_, ?_, ?_⟩
      · rw [hresp]
        simp only [Response.handledDirectly, List.filter_cons, Bool.false_eq_true, if_false]
        rw [ic]
        simp only [List.length_cons, Nat.cast_add, Nat.cast_one]
        omega
      · rw [hresp]
        have hd : decide ((Response.error 503 "Service unavailable").status = some 503) = true := by
          decide
        simp only [List.filter_cons, hd, if_true, List.length_cons, Nat.cast_add, Nat.cast_one]
        rw [i5]
        omega
      · intro x hx
        simp only [List.mem_cons] at hx
        rcases hx with rfl | hx
        · exact Or.inr hresp
        · exact iall x hx
    · obtain ⟨hh, h200, hinf⟩ := hyes hc
      have hlt := hiff.1 hc
      rw [hinf] at ic i5
      simp only [List.length_cons, Nat.cast_add, Nat.cast_one] at ic i5
      refine ⟨by simp [il], ?_, ?_, ?_⟩
      · simp only [List.filter_cons, hh, if_true, List.length_cons, Nat.cast_add, Nat.cast_one]
        rw [ic]
        omega
      · have : decide ((s.serve r rnd).2.status = some 503) = false := by
          rw [h200]
          decide
        simp only [List.filter_cons, this, Bool.false_eq_true, if_false, List.length_cons,
          Nat.cast_add, Nat.cast_one]
        rw [i5]
        omega
      · intro x hx
        simp only [List.mem_cons] at hx
        rcases hx with rfl | hx
        · exact Or.inl ⟨hh, h200⟩
        · exact iall x hx

/-- C13, as stated, fails: the idle node `overflowNode` has non-negative limits,
`memoryPerRequest >= 1` and no peers, and `min(3, maxCPU, maxMemory div memoryPerRequest)` is 1;
yet of three requests without chain header two are admitted and answered 200, because the sum
at line 66 wraps around for the second one. -/
theorem saturation_count_counterexample :
    overflowNode.WellFormed ∧ overflowNode.Idle ∧ 0 ≤ overflowNode.maxCPU ∧
    0 ≤ overflowNode.maxMemory ∧ 1 ≤ overflowNode.memoryPerRequest ∧ overflowNode.peers = [] ∧
    min (threeFresh.length : Int)
      (min overflowNode.maxCPU (overflowNode.maxMemory / overflowNode.memoryPerRequest)) = 1 ∧
    ((Sys.init overflowNode).serveAll threeFresh).2.map Response.status
      = [some 200, some 200, some 503] ∧
    (((Sys.init overflowNode).serveAll threeFresh).2.filter Response.handledDirectly).length
      = 2 := by
  decide

/-- C13, amended. For every idle node of Go ints with non-negative `maxCPU` and `maxMemory`,
`memoryPerRequest >= 1`, `maxMemory + memoryPerRequest` not above the largest `int`, and no
peers, when `k` requests with empty chain tokens pass the resource check with no release in
between, exactly `min(k, maxCPU, maxMemory div memoryPerRequest)` of them are answered 200 with
the message `Handled directly`, and all the others, `k` minus that number, are answered 503. -/
theorem saturation_count (n : Node) (reqs : List (Request × Rand))
    (hwf : n.WellFormed) (hidle : n.Idle) (hcpu : 0 ≤ n.maxCPU) (hmem : 0 ≤ n.maxMemory)
    (hreq : 1 ≤ n.memoryPerRequest)
    (hfit : n.maxMemory + n.memoryPerRequest ≤ 9223372036854775807)
    (hpeers : n.peers = []) (hfresh : ∀ x ∈ reqs, x.1.headerGet = []) :
    ((Sys.init n).serveAll reqs).2.length = reqs.length ∧
    ((((Sys.init n).serveAll reqs).2.filter Response.handledDirectly).length : Int) =
      min (reqs.length : Int) (min n.maxCPU (n.maxMemory / n.memoryPerRequest)) ∧
    ((((Sys.init n).serveAll reqs).2.filter (fun x => decide (x.status = some 503))).length : Int) =
      reqs.length - min (reqs.length : Int) (min n.maxCPU (n.maxMemory / n.memoryPerRequest)) ∧
    (∀ x ∈ ((Sys.init n).serveAll reqs).2,
      (x.handledDirectly = true ∧ x.status = some 200) ∨
        x = .error 503 "Service unavailable") := by
  have h0 : Sys.Bounded n (Sys.init n) := by
    obtain ⟨ha, hm⟩ := hidle
    refine ⟨rfl, rfl, rfl, ?_, ?_, ?_, ?_, ?_⟩
    · intro x hx
      simp [Sys.init] at hx
    · simp [Sys.init, ha]
    · simp [Sys.init, hm]
    · show n.activeRequests ≤ _
      omega
    · show n.memoryUsage ≤ _
      omega
  have key := serveAll_fresh n hwf.2.1 hreq hfit reqs (Sys.init n) h0 hpeers hfresh
  simpa [Sys.init] using key

/-- Scenario A: `maxCPU = 2`, `maxMemory = 200`, `memoryPerRequest = 50`, no peers and three
requests without chain header: two are answered 200 and one 503. -/
theorem saturation_count_witness :
    (((Sys.init scenarioNode).serveAll threeFresh).2.length = threeFresh.length ∧
    ((((Sys.init scenarioNode).serveAll threeFresh).2.filter Response.handledDirectly).length
        : Int) =
      min (threeFresh.length : Int)
        (min scenarioNode.maxCPU (scenarioNode.maxMemory / scenarioNode.memoryPerRequest)) ∧
    ((((Sys.init scenarioNode).serveAll threeFresh).2.filter
        (fun x => decide (x.status = some 503))).length : Int) =
      threeFresh.length - min (threeFresh.length : Int)
        (min scenarioNode.maxCPU (scenarioNode.maxMemory / scenarioNode.memoryPerRequest)) ∧
    (∀ x ∈ ((Sys.init scenarioNode).serveAll threeFresh).2,
      (x.handledDirectly = true ∧ x.status = some 200) ∨
        x = .error 503 "Service unavailable")) ∧
    min (threeFresh.length : Int)
      (min scenarioNode.maxCPU (scenarioNode.maxMemory / scenarioNode.memoryPerRequest)) = 2 ∧
    ((Sys.init scenarioNode).serveAll threeFresh).2.map Response.status
      = [some 200, some 200, some 503] :=
  ⟨saturation_count scenarioNode threeFresh (by decide) (by decide) (by decide) (by decide)
      (by decide) (by decide) (by decide) (by decide),
    by decide, by decide⟩

/-! ## C15: paired counters -/

theorem counted_step (n : Node) (hcpu : IsInt n.maxCPU) (s : Sys) (st : Step)
    (h : s.node.maxCPU = n.maxCPU ∧ s.node.memoryPerRequest = n.memoryPerRequest ∧
      (∀ x ∈ s.inflight, x = n.memoryPerRequest) ∧
      s.node.activeRequests = s.inflight.length ∧
      (s.inflight.length = 0 ∨ (s.inflight.length : Int) ≤ n.maxCPU)) :
    (s.step st).node.maxCPU = n.maxCPU ∧
      (s.step st).node.memoryPerRequest = n.memoryPerRequest ∧
      (∀ x ∈ (s.step st).inflight, x = n.memoryPerRequest) ∧
      (s.step st).node.activeRequests = (s.step st).inflight.length ∧
      ((s.step st).inflight.length = 0 ∨ ((s.step st).inflight.length : Int) ≤ n.maxCPU) := by
  obtain ⟨h1, h3, hall, ha, hlen⟩ := h
  cases st with
  | arrive =>
    cases hc : canHandle s.node
    · simp only [Sys.step, resourceCheck_of_not_canHandle hc]
      exact ⟨h1, h3, hall, ha, hlen⟩
    · simp only [Sys.step, resourceCheck_of_canHandle hc]
      obtain ⟨hlt, -⟩ := (canHandle_iff _).1 hc
      have e1 : goAdd s.node.activeRequests 1 = s.node.activeRequests + 1 := by
        unfold goAdd
        apply wrapInt_of_isInt
        unfold IsInt at *
        omega
      refine ⟨h1, h3, ?_, ?_, ?_⟩
      · intro x hx
        simp at hx
        rcases hx with rfl | hx
        · exact h3
        · exact hall x hx
      · show goAdd s.node.activeRequests 1 = _
        rw [e1, ha]
        simp
      · right
        simp only [List.length_cons, Nat.cast_add, Nat.cast_one]
        omega
  | finish i =>
    cases hg : s.inflight[i]? with
    | none =>
      simp only [Sys.step, hg]
      exact ⟨h1, h3, hall, ha, hlen⟩
    | some x =>
      simp only [Sys.step, hg]
      obtain ⟨-, hl, hmem⟩ := eraseIdx_of_getElem? hg
      have hpos : 0 < s.inflight.length := by
        rcases Nat.eq_zero_or_pos s.inflight.length with h0 | h0
        · rw [List.length_eq_zero] at h0
          simp [h0] at hg
        · exact h0
      have e1 : goSub s.node.activeRequests 1 = s.node.activeRequests - 1 := by
        unfold goSub
        apply wrapInt_of_isInt
        unfold IsInt at *
        omega
      refine ⟨h1, h3, fun y hy => hall y (hmem y hy), ?_, ?_⟩
      · show goSub s.node.activeRequests 1 = _
        rw [e1, ha, hl]
      · right
        omega

theorem counted_run (n : Node) (hcpu : IsInt n.maxCPU) (steps : List Step) (s : Sys)
    (h : s.node.maxCPU = n.maxCPU ∧ s.node.memoryPerRequest = n.memoryPerRequest ∧
      (∀ x ∈ s.inflight, x = n.memoryPerRequest) ∧
      s.node.activeRequests = s.inflight.length ∧
      (s.inflight.length = 0 ∨ (s.inflight.length : Int) ≤ n.maxCPU)) :
    (s.run steps).node.maxCPU = n.maxCPU ∧
      (s.run steps).node.memoryPerRequest = n.memoryPerRequest ∧
      (∀ x ∈ (s.run steps).inflight, x = n.memoryPerRequest) ∧
      (s.run steps).node.activeRequests = (s.run steps).inflight.length ∧
      ((s.run steps).inflight.length = 0 ∨ ((s.run steps).inflight.length : Int) ≤ n.maxCPU) := by
  induction steps generalizing s with
  | nil => exact h
  | cons st steps ih => exact ih _ (counted_step n hcpu s st h)

theorem isInt_mul_of_le {k c p : Int} (hk : 0 ≤ k) (hkc : k ≤ c) (h : IsInt (c * p)) :
    IsInt (k * p) := by
  unfold IsInt at *
  rcases le_or_lt 0 p with hp | hp
  · have h1 : k * p ≤ c * p := Int.mul_le_mul_of_nonneg_right hkc hp
    have h2 : 0 ≤ k * p := Int.mul_nonneg hk hp
    omega
  · have h1 : c * p ≤ k * p := Int.mul_le_mul_of_nonpos_right hkc (le_of_lt hp)
    have h2 : k * p ≤ 0 := Int.mul_nonpos_of_nonneg_of_nonpos hk (le_of_lt hp)
    omega

/-- C15, as stated, fails: on the idle node `wrapNode` (four slots, cost `2^62` per request)
four admissions bring `memoryUsage` back to 0 while `activeRequests` is 4, so
`memoryUsage` is not `activeRequests * memoryPerRequest` and one counter is zero while the other
is not, although `memoryPerRequest` is not zero. -/
theorem paired_counters_counterexample :
    wrapNode.WellFormed ∧ wrapNode.Idle ∧ wrapNode.memoryPerRequest ≠ 0 ∧
    ((Sys.init wrapNode).run [.arrive, .arrive, .arrive, .arrive]).node.activeRequests = 4 ∧
    ((Sys.init wrapNode).run [.arrive, .arrive, .arrive, .arrive]).node.memoryUsage = 0 ∧
    ((Sys.init wrapNode).run [.arrive, .arrive, .arrive, .arrive]).node.memoryUsage ≠
      ((Sys.init wrapNode).run [.arrive, .arrive, .arrive, .arrive]).node.activeRequests
        * wrapNode.memoryPerRequest := by
  decide

/-- C15, amended. For every node of Go ints for which `maxCPU * memoryPerRequest` is a Go `int`
and that starts idle, every ledger reachable by a schedule of reserve steps and of release steps
of admitted requests satisfies `memoryUsage = activeRequests * memoryPerRequest`; so, for
`memoryPerRequest /= 0`, one counter is zero exactly when the other is. -/
theorem paired_counters (n : Node) (steps : List Step) (hwf : n.WellFormed) (hidle : n.Idle)
    (hprod : IsInt (n.maxCPU * n.memoryPerRequest)) :
    ((Sys.init n).run steps).node.memoryUsage =
      ((Sys.init n).run steps).node.activeRequests * n.memoryPerRequest ∧
    (n.memoryPerRequest ≠ 0 →
      (((Sys.init n).run steps).node.activeRequests = 0 ↔
        ((Sys.init n).run steps).node.memoryUsage = 0)) := by
  obtain ⟨ha0, hm0⟩ := hidle
  have hp0 : (Sys.init n).Paired := by
    constructor
    · show n.activeRequests = wrapInt (([] : List Int).length : Int)
      rw [ha0]
      simp [wrapInt_zero]
    · show n.memoryUsage = wrapInt ([] : List Int).sum
      rw [hm0]
      simp [wrapInt_zero]
  have hc0 : (Sys.init n).node.maxCPU = n.maxCPU ∧
      (Sys.init n).node.memoryPerRequest = n.memoryPerRequest ∧
      (∀ x ∈ (Sys.init n).inflight, x = n.memoryPerRequest) ∧
      (Sys.init n).node.activeRequests = (Sys.init n).inflight.length ∧
      ((Sys.init n).inflight.length = 0 ∨ ((Sys.init n).inflight.length : Int) ≤ n.maxCPU) := by
    refine ⟨rfl, rfl, ?_, ?_, Or.inl rfl⟩
    · intro x hx
      simp [Sys.init] at hx
    · simp [Sys.init, ha0]
  obtain ⟨-, hm⟩ := paired_run steps _ hp0
  obtain ⟨-, -, hall, ha, hlen⟩ := counted_run n hwf.2.1 steps _ hc0
  have hsum := sum_of_all_eq hall
  have hint : IsInt ((((Sys.init n).run steps).inflight.length : Int) * n.memoryPerRequest) := by
    rcases hlen with h0 | hle
    · rw [h0]
      unfold IsInt
      simp
    · exact isInt_mul_of_le (Int.natCast_nonneg _) hle hprod
  have hmain : ((Sys.init n).run steps).node.memoryUsage =
      ((Sys.init n).run steps).node.activeRequests * n.memoryPerRequest := by
    rw [hm, hsum, wrapInt_of_isInt hint, ha]
  refine ⟨hmain, ?_⟩
  intro hne
  rw [hmain]
  constructor
  · intro h
    rw [h]
    simp
  · intro h
    rcases Int.mul_eq_zero.1 h with h | h
    · exact h
    · exact absurd h hne

/-- The amended C15 on the node of Scenario A after two admissions and one release. -/
theorem paired_counters_witness :
    ((Sys.init scenarioNode).run [.arrive, .arrive, .finish 0]).node.memoryUsage =
      ((Sys.init scenarioNode).run [.arrive, .arrive, .finish 0]).node.activeRequests
        * scenarioNode.memoryPerRequest ∧
    (scenarioNode.memoryPerRequest ≠ 0 →
      (((Sys.init scenarioNode).run [.arrive, .arrive, .finish 0]).node.activeRequests = 0 ↔
        ((Sys.init scenarioNode).run [.arrive, .arrive, .finish 0]).node.memoryUsage = 0)) :=
  paired_counters scenarioNode [.arrive, .arrive, .finish 0] (by decide) (by decide) (by decide)

/-! ## Hop lists of extended tokens -/

theorem consHead_append {l : List GoString} (c : Nat) (h : GoString) (hl : l ≠ []) :
    consHead c (l ++ [h]) = consHead c l ++ [h] := by
  cases l with
  | nil => exact absurd rfl hl
  | cons p ps => rfl

theorem mem_of_mem_consHead_tail {c : Nat} {l : List GoString} {p : GoString}
    (hp : p ∈ l) : ∃ q ∈ consHead c l, ∀ x ∈ p, x ∈ q := by
  cases l with
  | nil => simp at hp
  | cons a as =>
    simp only [List.mem_cons] at hp
    rcases hp with rfl | hp
    · exact ⟨c :: p, by simp [consHead], fun x hx => by simp [hx]⟩
    · exact ⟨p, by simp [consHead, hp], fun x hx => hx⟩

theorem head_mem_consHead (c : Nat) (l : List GoString) : ∃ q ∈ consHead c l, c ∈ q := by
  cases l with
  | nil => exact ⟨[c], by simp [consHead], by simp⟩
  | cons a as => exact ⟨c :: a, by simp [consHead], by simp⟩

theorem splitFrom_append (h : GoString) (hh : 32 ∉ h) (t : GoString) (k : Nat)
    (hk : k ≤ t.length) (hpieces : ∀ p ∈ splitFrom delim t k, 32 ∉ p) :
    splitFrom delim (t ++ (delim ++ h)) k = splitFrom delim t k ++ [h] := by
  induction t generalizing k with
  | nil =>
    have hk0 : k = 0 := by simpa using hk
    subst hk0
    rw [List.nil_append, splitFrom_delim_append, splitFrom_no_space h hh]
    rfl
  | cons c t ih =>
    cases k with
    | succ k =>
      rw [List.cons_append, splitFrom_cons_succ, splitFrom_cons_succ]
      rw [splitFrom_cons_succ] at hpieces
      exact ih k (by simpa using hk) hpieces
    | zero =>
      rw [splitFrom_cons_zero] at hpieces
      rw [List.cons_append, splitFrom_cons_zero, splitFrom_cons_zero]
      by_cases h1 : delim.isPrefixOf (c :: t) = true
      · have h2 : delim.isPrefixOf (c :: (t ++ (delim ++ h))) = true := by
          rw [List.isPrefixOf_iff_prefix] at h1 ⊢
          exact h1.trans (List.prefix_append (c :: t) (delim ++ h))
        rw [if_pos h1] at hpieces
        rw [if_pos h1, if_pos h2]
        have hl : delim.length ≤ (c :: t).length :=
          (List.isPrefixOf_iff_prefix.1 h1).length_le
        rw [ih (delim.length - 1) (by simp [delim] at hl ⊢; omega)
          (fun p hp => hpieces p (by simp [hp]))]
        rfl
      · rw [if_neg h1] at hpieces
        have hc : c ≠ 32 := by
          obtain ⟨q, hq, hcq⟩ := head_mem_consHead c (splitFrom delim t 0)
          intro e
          exact hpieces q hq (e ▸ hcq)
        have h2 : ¬ delim.isPrefixOf (c :: (t ++ (delim ++ h))) = true := by
          rw [delim_isPrefixOf_of_ne _ hc]
          simp
        rw [if_neg h1, if_neg h2]
        have hrec : ∀ p ∈ splitFrom delim t 0, 32 ∉ p := by
          intro p hp hmem
          obtain ⟨q, hq, hsub⟩ := mem_of_mem_consHead_tail (c := c) hp
          exact hpieces q hq (hsub 32 hmem)
        rw [ih 0 (Nat.zero_le _) hrec, consHead_append c h (splitFrom_ne_nil _ _ _)]

theorem Split_append (token hostname : GoString) (hh : 32 ∉ hostname)
    (hpieces : ∀ p ∈ Split token delim, 32 ∉ p) :
    Split (token ++ (delim ++ hostname)) delim = Split token delim ++ [hostname] :=
  splitFrom_append hostname hh token 0 (Nat.zero_le _) hpieces

theorem chainCheck_step {hostname token c : GoString} (hh : 32 ∉ hostname)
    (hpieces : ∀ p ∈ Split token delim, 32 ∉ p)
    (h : chainCheck hostname ⟨some token⟩ = some c) :
    (token = [] ∧ c = hostname ∧ Split c delim = [hostname]) ∨
    (token ≠ [] ∧ hostname ∉ Split token delim ∧ (Split token delim).length < maxHops ∧
      Split c delim = Split token delim ++ [hostname]) := by
  by_cases hne : token = []
  · left
    subst hne
    have : chainCheck hostname ⟨some []⟩ = some hostname := by simp [chainCheck, Request.headerGet]
    rw [this] at h
    injection h with h
    subst h
    exact ⟨rfl, rfl, splitFrom_no_space _ hh⟩
  · right
    rw [chainCheck_of_nonempty hne] at h
    split at h
    · exact Option.noConfusion h
    · next hacc =>
      injection h with h
      subst h
      refine ⟨hne, ?_, ?_, Split_append token hostname hh hpieces⟩
      · intro hmem
        exact hacc (Or.inr ((contains_iff_occurs _ _).2 (mem_Split_occurs hmem)))
      · exact Nat.lt_of_not_le (fun hle => hacc (Or.inl hle))

theorem chainAlong_cons (token hostname : GoString) (rest : List GoString) :
    chainAlong token (hostname :: rest) =
      match chainCheck hostname ⟨some token⟩ with
      | none => none
      | some c => chainAlong c rest := rfl

theorem chainAlong_distinct (hosts : List GoString) (token result : GoString)
    (hhosts : ∀ h ∈ hosts, 32 ∉ h) (hpieces : ∀ p ∈ Split token delim, 32 ∉ p)
    (hnd : (Split token delim).Nodup) (h : chainAlong token hosts = some result) :
    (∀ p ∈ Split result delim, 32 ∉ p) ∧ (Split result delim).Nodup := by
  induction hosts generalizing token with
  | nil =>
    injection h with h
    subst h
    exact ⟨hpieces, hnd⟩
  | cons hostname rest ih =>
    rw [chainAlong_cons] at h
    cases hc : chainCheck hostname ⟨some token⟩ with
    | none =>
      rw [hc] at h
      exact Option.noConfusion h
    | some c =>
      rw [hc] at h
      have hh : 32 ∉ hostname := hhosts hostname (by simp)
      have hrest : ∀ x ∈ rest, 32 ∉ x := fun x hx => hhosts x (by simp [hx])
      rcases chainCheck_step hh hpieces hc with ⟨-, -, hs⟩ | ⟨-, hnot, -, hs⟩
      · apply ih c hrest _ _ h
        · rw [hs]
          intro p hp
          simp only [List.mem_singleton] at hp
          rw [hp]
          exact hh
        · rw [hs]
          simp
      · apply ih c hrest _ _ h
        · rw [hs]
          intro p hp
          simp only [List.mem_append, List.mem_singleton] at hp
          rcases hp with hp | hp
          · exact hpieces p hp
          · rw [hp]
            exact hh
        · rw [hs]
          exact List.Nodup.append hnd (by simp) (by simpa using hnot)

theorem chainAlong_hops (hosts : List GoString) (token result : GoString)
    (visited : List GoString)
    (hhosts : ∀ h ∈ hosts, 32 ∉ h ∧ h ≠ []) (hvis : ∀ p ∈ visited, 32 ∉ p)
    (hstart : (token = [] ∧ visited = []) ∨ (token ≠ [] ∧ Split token delim = visited))
    (hne : hosts ≠ []) (h : chainAlong token hosts = some result) :
    Split result delim = visited ++ hosts := by
  induction hosts generalizing token visited with
  | nil => exact absurd rfl hne
  | cons hostname rest ih =>
    rw [chainAlong_cons] at h
    cases hc : chainCheck hostname ⟨some token⟩ with
    | none =>
      rw [hc] at h
      exact Option.noConfusion h
    | some c =>
      rw [hc] at h
      obtain ⟨hh, hhne⟩ := hhosts hostname (by simp)
      have hrest : ∀ x ∈ rest, 32 ∉ x ∧ x ≠ [] := fun x hx => hhosts x (by simp [hx])
      have hpieces : ∀ p ∈ Split token delim, 32 ∉ p := by
        rcases hstart with ⟨ht, -⟩ | ⟨-, hs⟩
        · subst ht
          intro p hp
          have : Split [] delim = [[]] := rfl
          rw [this] at hp
          simp only [List.mem_singleton] at hp
          rw [hp]
          simp
        · rw [hs]
          exact hvis
      have hnew : c ≠ [] ∧ Split c delim = visited ++ [hostname] := by
        rcases chainCheck_step hh hpieces hc with ⟨ht, hceq, hs⟩ | ⟨ht, -, -, hs⟩
        · rcases hstart with ⟨-, hv⟩ | ⟨ht2, -⟩
          · rw [hv]
            exact ⟨hceq ▸ hhne, hs⟩
          · exact absurd ht ht2
        · rcases hstart with ⟨ht2, -⟩ | ⟨-, hv⟩
          · exact absurd ht2 ht
          · refine ⟨?_, hv ▸ hs⟩
            intro hcn
            rw [hcn] at hs
            have : Split [] delim = [[]] := rfl
            rw [this] at hs
            have hlen := congrArg List.length hs
            simp at hlen
            have := splitFrom_ne_nil delim token 0
            exact this hlen
      by_cases hr : rest = []
      · subst hr
        injection h with h
        subst h
        exact hnew.2
      · have hvis2 : ∀ p ∈ visited ++ [hostname], 32 ∉ p := by
          intro p hp
          simp only [List.mem_append, List.mem_singleton] at hp
          rcases hp with hp | hp
          · exact hvis p hp
          · rw [hp]
            exact hh
        have := ih c (visited ++ [hostname]) hrest hvis2 (Or.inr hnew) hr h
        rw [this]
        simp

/-! ## C16: no node twice in a chain -/

/-- C16, as stated, fails.  The hostnames `a →` and `→ a` do not contain the delimiter; a request
that starts with an empty token and is accepted by these two nodes carries the token
`a → → → a`, whose hop list is `a`, `→`, `a`.  And a node whose hostname is empty accepts the
same request twice, since the token it sends on is empty again. -/
theorem chain_distinct_counterexample :
    (Contains (utf8 "a →") delim = false ∧ Contains (utf8 "→ a") delim = false ∧
      chainAlong [] [utf8 "a →", utf8 "→ a"] = some (utf8 "a → → → a") ∧
      Split (utf8 "a → → → a") delim = [utf8 "a", utf8 "→", utf8 "a"] ∧
      ¬ (Split (utf8 "a → → → a") delim).Nodup) ∧
    (Contains [] delim = false ∧ chainAlong [] [[], []] = some []) := by
  decide

/-- C16, amended. For every sequence of nodes whose hostnames contain no space, every chain
token obtained from an empty token by successive accepted chain checks at those nodes has
pairwise distinct hops in its hop list; if moreover the hostnames are not empty, the hop list
is the list of these hostnames in order, so no hostname occurs twice among the nodes that
accepted the request. -/
theorem chain_distinct (hosts : List GoString) (token : GoString)
    (hhosts : ∀ h ∈ hosts, 32 ∉ h) (hacc : chainAlong [] hosts = some token) :
    (Split token delim).Nodup ∧
    ((∀ h ∈ hosts, h ≠ []) → hosts ≠ [] → Split token delim = hosts ∧ hosts.Nodup) := by
  have h0 : ∀ p ∈ Split [] delim, 32 ∉ p := by
    intro p hp
    have : Split [] delim = [[]] := rfl
    rw [this] at hp
    simp only [List.mem_singleton] at hp
    rw [hp]
    simp
  have hnd0 : (Split [] delim).Nodup := by
    have : Split [] delim = [[]] := rfl
    rw [this]
    simp
  obtain ⟨-, hnd⟩ := chainAlong_distinct hosts [] token hhosts h0 hnd0 hacc
  refine ⟨hnd, ?_⟩
  intro hne hnil
  have hs := chainAlong_hops hosts [] token [] (fun h hh => ⟨hhosts h hh, hne h hh⟩)
    (by simp) (Or.inl ⟨rfl, rfl⟩) hnil hacc
  rw [List.nil_append] at hs
  exact ⟨hs, hs ▸ hnd⟩

/-- The amended C16 for a request that passes through `nodeA`, `nodeB` and `nodeC`. -/
theorem chain_distinct_witness :
    chainAlong [] [utf8 "nodeA", utf8 "nodeB", utf8 "nodeC"]
      = some (utf8 "nodeA → nodeB → nodeC") ∧
    (Split (utf8 "nodeA → nodeB → nodeC") delim).Nodup ∧
    Split (utf8 "nodeA → nodeB → nodeC") delim = [utf8 "nodeA", utf8 "nodeB", utf8 "nodeC"] :=
  ⟨by decide,
    (chain_distinct [utf8 "nodeA", utf8 "nodeB", utf8 "nodeC"] (utf8 "nodeA → nodeB → nodeC")
      (by decide) (by decide)).1,
    ((chain_distinct [utf8 "nodeA", utf8 "nodeB", utf8 "nodeC"] (utf8 "nodeA → nodeB → nodeC")
      (by decide) (by decide)).2 (by decide) (by decide)).1⟩

/-! ## C17: bounded chain length -/

/-- C17, as stated, fails: the hostname `→ x` does not contain the delimiter, the token
`a → b → c → d →` has four hops and does not contain the hostname, so the chain check accepts;
the resulting token `a → b → c → d → → → x` has six hops. -/
theorem chain_length_counterexample :
    Contains (utf8 "→ x") delim = false ∧
    (Split (utf8 "a → b → c → d →") delim).length = 4 ∧
    chainCheck (utf8 "→ x") ⟨some (utf8 "a → b → c → d →")⟩
      = some (utf8 "a → b → c → d → → → x") ∧
    Split (utf8 "a → b → c → d → → → x") delim
      = [utf8 "a", utf8 "b", utf8 "c", utf8 "d", utf8 "→", utf8 "x"] ∧
    ¬ ((Split (utf8 "a → b → c → d → → → x") delim).length ≤ maxHops) := by
  decide

/-- C17, amended. For every node whose hostname contains no space and every incoming
`X-Request-Chain` value, present or not, whenever the chain check accepts, the hop list of the
resulting chain token has at least 1 and at most `maxHops = 5` hops. -/
theorem chain_length_bounded (n : Node) (r : Request) (c : GoString)
    (hsp : 32 ∉ n.hostname) (hacc : chainCheck n.hostname r = some c) :
    1 ≤ (Split c delim).length ∧ (Split c delim).length ≤ maxHops := by
  by_cases hr : r.headerGet = []
  · have : chainCheck n.hostname r = some n.hostname := by simp [chainCheck, hr]
    rw [this] at hacc
    injection hacc with hacc
    subst hacc
    have hs : Split n.hostname delim = [n.hostname] := splitFrom_no_space _ hsp
    rw [hs]
    exact ⟨Nat.le_refl 1, show 1 ≤ 5 by decide⟩
  · have hch : chainCheck n.hostname r =
        if (Split r.headerGet delim).length ≥ maxHops ∨ Contains r.headerGet n.hostname = true
        then none else some (r.headerGet ++ (delim ++ n.hostname)) := by
      simp [chainCheck, hr]
    rw [hch] at hacc
    split at hacc
    · exact Option.noConfusion hacc
    · next hok =>
      injection hacc with hacc
      subst hacc
      have hlen : (Split (r.headerGet ++ (delim ++ n.hostname)) delim).length =
          (Split r.headerGet delim).length + 1 :=
        length_splitFrom_append n.hostname hsp r.headerGet 0 (Nat.zero_le _)
      have hlt : (Split r.headerGet delim).length < maxHops :=
        Nat.lt_of_not_le (fun hle => hok (Or.inl hle))
      rw [hlen]
      exact ⟨Nat.le_add_left 1 _, hlt⟩

/-- The amended C17 at the node `nodeA` for a token of four hops: the new token has five. -/
theorem chain_length_bounded_witness :
    chainCheck scenarioNode.hostname ⟨some (utf8 "n1 → n2 → n3 → n4")⟩
      = some (utf8 "n1 → n2 → n3 → n4 → nodeA") ∧
    (Split (utf8 "n1 → n2 → n3 → n4 → nodeA") delim).length = 5 ∧
    1 ≤ (Split (utf8 "n1 → n2 → n3 → n4 → nodeA") delim).length ∧
    (Split (utf8 "n1 → n2 → n3 → n4 → nodeA") delim).length ≤ maxHops :=
  ⟨by decide, by decide,
    chain_length_bounded scenarioNode ⟨some (utf8 "n1 → n2 → n3 → n4")⟩
      (utf8 "n1 → n2 → n3 → n4 → nodeA") (by decide) (by decide)⟩

end GoLoadBalancer
